import Mathlib

/-!
Verification of the staging core of the markus-autotesting repository
(autotester/server/utils/file_management.py) against its natural-language
specification.  The Python functions are shallowly embedded over a tree
model of a POSIX filesystem: a directory is a list of named subdirectories
together with a list of named files with contents, and a path is the list
of its components from an implicit root.
-/

namespace Autotester

/-- A filesystem path: the list of its components below an implicit root. -/
abbrev Path := List String

/-- An entry yielded by `recursive_iglob`: a kind tag (the character d for a
directory or f for a file, exactly as the Python source tags them) together
with a path. -/
abbrev Entry := Char × Path

/-- One directory of a POSIX filesystem: its named subdirectories in listing
order, and its named files (with contents) in listing order.  A whole
filesystem is the `FSTree` of its root directory. -/
inductive FSTree where
  | mk (dirs : List (String × FSTree)) (files : List (String × String))

/-- The subdirectory list of a directory node. -/
def FSTree.dirs : FSTree → List (String × FSTree)
  | .mk ds _ => ds

/-- The file list of a directory node. -/
def FSTree.files : FSTree → List (String × String)
  | .mk _ fs => fs

/-- The empty directory. -/
def FSTree.empty : FSTree := .mk [] []

/-- Association-list lookup by key (first match). -/
def lookupA {κ α : Type} [DecidableEq κ] : List (κ × α) → κ → Option α
  | [], _ => none
  | (k, v) :: rest, n => if k = n then some v else lookupA rest n

/-- Association-list update of the first entry with the given key; leaves the
list unchanged when the key is absent. -/
def updateA {κ α : Type} [DecidableEq κ] : List (κ × α) → κ → α → List (κ × α)
  | [], _, _ => []
  | (k, v) :: rest, n, w => if k = n then (k, w) :: rest else (k, v) :: updateA rest n w

/-- Association-list removal of every entry with the given key.  (On a real
filesystem a name occurs at most once in a directory.) -/
def removeA {κ α : Type} [DecidableEq κ] : List (κ × α) → κ → List (κ × α)
  | [], _ => []
  | (k, v) :: rest, n => if k = n then removeA rest n else (k, v) :: removeA rest n

/-- Set the value of key `n` to `c`: update it in place when present, append it
otherwise (a new file appears at the end of its directory's listing). -/
def setA {κ α : Type} [DecidableEq κ] : List (κ × α) → κ → α → List (κ × α)
  | [], n, c => [(n, c)]
  | (k, v) :: rest, n, c => if k = n then (k, c) :: rest else (k, v) :: setA rest n c

/-- Set the file named `n` to content `c` in a file listing. -/
def setFileA (l : List (String × String)) (n c : String) : List (String × String) :=
  setA l n c

/-- The subdirectory of `t` reached by following the components of a path;
`some t` itself for the empty path, `none` when some component is missing. -/
def FSTree.findDir? : FSTree → Path → Option FSTree
  | t, [] => some t
  | .mk ds _, n :: rest =>
    match lookupA ds n with
    | some sub => sub.findDir? rest
    | none => none

/-- Whether a directory exists at the path (the model of `os.path.isdir`). -/
def FSTree.isDir (t : FSTree) (p : Path) : Bool :=
  (t.findDir? p).isSome

/-- The content of the file at the path, when it exists: look up the file's
name in the file listing of the path's parent directory. -/
def FSTree.findFile? (t : FSTree) (p : Path) : Option String :=
  match p.getLast? with
  | none => none
  | some n => (t.findDir? p.dropLast).bind (fun u => lookupA u.files n)

/-- Model of `os.makedirs(path, exist_ok=True)`: create every missing directory
along the path; existing directories are kept as they are.  A directory created
fresh appears at the end of its parent's listing. -/
def FSTree.mkdirs : FSTree → Path → FSTree
  | t, [] => t
  | .mk ds fs, n :: rest =>
    match lookupA ds n with
    | some sub => .mk (updateA ds n (sub.mkdirs rest)) fs
    | none => .mk (ds ++ [(n, FSTree.empty.mkdirs rest)]) fs

/-- Write content `c` to the file at path `p` (the model of the write performed
by `shutil.copy2`).  The caller has created the parent directory with `mkdirs`
first, exactly as `copy_tree` does; when the parent is missing the model leaves
the tree unchanged (the Python call would raise instead, a case none of the
embedded functions reach). -/
def FSTree.writeFile : FSTree → Path → String → FSTree
  | t, [], _ => t
  | .mk ds fs, [n], c => .mk ds (setFileA fs n c)
  | .mk ds fs, n :: rest, c =>
    match lookupA ds n with
    | some sub => .mk (updateA ds n (sub.writeFile rest c)) fs
    | none => .mk ds fs

/-- Remove the directory (and its whole subtree) at path `p`, the effect of a
successful `shutil.rmtree(p)`.  Removing the root or a missing path leaves the
tree unchanged. -/
def FSTree.removeDir : FSTree → Path → FSTree
  | t, [] => t
  | .mk ds fs, [n] => .mk (removeA ds n) fs
  | .mk ds fs, n :: rest =>
    match lookupA ds n with
    | some sub => .mk (updateA ds n (sub.removeDir rest)) fs
    | none => .mk ds fs

/-- Replace the subtree at path `p` by `u`; leaves the tree unchanged when the
path does not exist.  Not a function of the Python source: a specification
combinator used to state how the copying functions edit the filesystem. -/
def FSTree.setDir : FSTree → Path → FSTree → FSTree
  | _, [], u => u
  | .mk ds fs, n :: rest, u =>
    match lookupA ds n with
    | some sub => .mk (updateA ds n (sub.setDir rest u)) fs
    | none => .mk ds fs

/-- Whether a list of names has no duplicates (directory listings of a real
filesystem are duplicate-free). -/
def nodupB : List String → Bool
  | [] => true
  | x :: xs => !(xs.contains x) && nodupB xs

mutual

/-- Well-formedness of a filesystem tree: inside every directory, the
subdirectory names and file names are pairwise distinct.  Every tree that a
POSIX filesystem can present satisfies this. -/
def FSTree.wf : FSTree → Bool
  | .mk ds fs => nodupB (ds.map Prod.fst ++ fs.map Prod.fst) && wfL ds

/-- All subtrees of a subdirectory listing are well-formed. -/
def wfL : List (String × FSTree) → Bool
  | [] => true
  | (_, sub) :: rest => sub.wf && wfL rest

end

mutual

/-- The entry sequence produced by `recursive_iglob` (file_management.py,
lines 13-26) when walking the subtree `t` mounted at absolute path `base`:
`os.walk` produces the triple of a directory (its subdirectory names, then its
file names) before recursing into each subdirectory in listing order, and the
generator yields, for each triple, first the directories and then the files,
each joined to the root. -/
def iglT (base : Path) : FSTree → List Entry
  | .mk ds fs =>
    ds.map (fun d => ('d', base ++ [d.1])) ++ fs.map (fun f => ('f', base ++ [f.1]))
      ++ iglL base ds

/-- The concatenated walks of the subdirectories, in listing order. -/
def iglL (base : Path) : List (String × FSTree) → List Entry
  | [] => []
  | (n, sub) :: rest => iglT (base ++ [n]) sub ++ iglL base rest

end

/-- Model of `recursive_iglob(root_dir)` (lines 13-26): the walk of the
directory at `root_dir`, or `none` for the `ValueError` raised when no
directory exists there. -/
def recursive_iglob (fs : FSTree) (root_dir : Path) : Option (List Entry) :=
  (fs.findDir? root_dir).map (iglT root_dir)

/-- Model of `os.path.relpath(p, src)` for a path `p` lying below `src` (the
only case `copy_tree` reaches): drop the leading components of `src`. -/
def relpath (p src : Path) : Path := p.drop src.length

/-- One iteration of the `copy_tree` loop (lines 36-46) on the accumulator of
(filesystem, copied record): skip the entry when its src-relative path is in
`exclude`; otherwise create the directory (`os.makedirs(target, exist_ok=True)`)
or create the parent directories and copy the file (`shutil.copy2`), and append
the entry to the record. -/
def copyStep (src dst : Path) (exclude : List Path) (acc : FSTree × List Entry)
    (e : Entry) : FSTree × List Entry :=
  let sp := relpath e.2 src
  if sp ∈ exclude then acc
  else
    let target := dst ++ sp
    if e.1 = 'd' then (acc.1.mkdirs target, acc.2 ++ [(e.1, target)])
    else
      ((acc.1.mkdirs target.dropLast).writeFile target ((acc.1.findFile? e.2).getD ""),
        acc.2 ++ [(e.1, target)])

/-- Model of `copy_tree(src, dst, exclude)` (lines 28-47): walk `src` and fold
the loop body over the entries; `none` models the `ValueError` from
`recursive_iglob` when `src` is not a directory.  Returns the copied record and
the resulting filesystem. -/
def copy_tree (fs : FSTree) (src dst : Path) (exclude : List Path) :
    Option (List Entry × FSTree) :=
  (fs.findDir? src).map (fun t =>
    let r := (iglT src t).foldl (copyStep src dst exclude) (fs, [])
    (r.2, r.1))

/-- The error classes of the Python OS calls that the source distinguishes. -/
inductive PyErr where
  | fileNotFound
  | notADirectory
  | permissionDenied
deriving DecidableEq

/-- Model of `ignore_missing_dir_error` (lines 49-54): called on the error
raised during tree deletion, it swallows a `FileNotFoundError` and re-raises
any other error. -/
def ignore_missing_dir_error (e : PyErr) : Except PyErr Unit :=
  match e with
  | .fileNotFound => .ok ()
  | err => .error err

/-- Model of `shutil.rmtree(p, onerror=ignore_missing_dir_error)` as used by
`move_tree` (line 64): deleting an existing directory removes its subtree;
deleting a missing path raises `FileNotFoundError`, which the handler swallows;
deleting a path that is a file raises `NotADirectoryError`, which the handler
re-raises. -/
def rmtree_onerror (fs : FSTree) (p : Path) : Except PyErr FSTree :=
  if fs.isDir p then .ok (fs.removeDir p)
  else if (fs.findFile? p).isSome then
    match ignore_missing_dir_error .notADirectory with
    | .ok _ => .ok fs
    | .error e => .error e
  else
    match ignore_missing_dir_error .fileNotFound with
    | .ok _ => .ok fs
    | .error e => .error e

/-- Model of `move_tree(src, dst)` (lines 56-65): create `dst` if needed, copy
`src` into it with no exclusions, then delete the tree at `src` tolerating only
a vanished path. -/
def move_tree (fs : FSTree) (src dst : Path) : Option (List Entry × FSTree) :=
  let fs0 := fs.mkdirs dst
  (copy_tree fs0 src dst []).bind (fun r =>
    match rmtree_onerror r.2 src with
    | .ok fs1 => some (r.1, fs1)
    | .error _ => none)

/-- The observable events of the scoped handle and lock combinators. -/
inductive FMEvent where
  | opened
  | locked (exclusive : Bool)
  | unlocked
  | closed
deriving DecidableEq

/-- Model of the `fd_open` context manager (lines 67-78): open the handle,
run the body, and close the handle on every exit from the scope (the
`try/finally` of the source), whatever the body's outcome value is. -/
def fd_open {α : Type} (body : α × List FMEvent) : α × List FMEvent :=
  (body.1, FMEvent.opened :: body.2 ++ [FMEvent.closed])

/-- Model of the `fd_lock` context manager (lines 80-91): take the lock in the
requested mode (`fcntl.flock`, `LOCK_EX` when exclusive else `LOCK_SH`), run
the body, and unlock on every exit from the scope (the `try/finally` of the
source), whatever the body's outcome value is. -/
def fd_lock {α : Type} (exclusive : Bool) (body : α × List FMEvent) :
    α × List FMEvent :=
  (body.1, FMEvent.locked exclusive :: body.2 ++ [FMEvent.unlocked])

/-- Model of `copy_test_script_files` (lines 93-105).  The script directory is
`os.path.join(test_script_directory(...), TEST_SCRIPTS_FILES_DIRNAME)`; the
resolver `test_script_directory` is defined outside this module, so its result
is taken as the argument `test_script_outer_dir` and the conventional files
subdirectory name as `files_dirname`.  When the joined directory exists, its
tree is copied into `tests_path` under an open handle holding a shared lock;
otherwise the empty record is returned with no handle or lock activity. -/
def copy_test_script_files (fs : FSTree) (test_script_outer_dir : Path)
    (files_dirname : String) (tests_path : Path) :
    (List Entry × FSTree) × List FMEvent :=
  let test_script_dir := test_script_outer_dir ++ [files_dirname]
  if fs.isDir test_script_dir then
    fd_open (fd_lock false
      ((match copy_tree fs test_script_dir tests_path [] with
        | some r => r
        | none => ([], fs)), []))
  else (([], fs), [])

/-- A permission map: the mode bits recorded for each path by `os.chmod`. -/
abbrev Modes := List (Path × Nat)

/-- Model of `setup_files(files_path, tests_path, ...)` (lines 107-131):
chmod the workspace root to `0o1770`, move the student tree in and chmod each
recorded entry (`0o777` directories, `0o666` files), copy the shared script
tree in and chmod each recorded entry (`0o755`, minus `0o111` for files), and
return both records.  The mode of a path is the one set by the last `chmod`
applied to it; every path either copy touches receives a `chmod` afterwards,
so the fold over chmod events determines every recorded path's final mode. -/
def setup_files (fs : FSTree) (modes : Modes) (files_path tests_path : Path)
    (test_script_outer_dir : Path) (files_dirname : String) :
    Option (FSTree × Modes × List Entry × List Entry) :=
  let m1 := setA modes tests_path 0o1770
  (move_tree fs files_path tests_path).map (fun r =>
    let student_files := r.1
    let m2 := student_files.foldl
      (fun mm e => setA mm e.2 (if e.1 = 'd' then 0o777 else 0o666)) m1
    let cr := copy_test_script_files r.2 test_script_outer_dir files_dirname tests_path
    let script_files := cr.1.1
    let m3 := script_files.foldl
      (fun mm e => setA mm e.2 (0o755 - (if e.1 = 'f' then 0o111 else 0))) m2
    (cr.1.2, m3, student_files, script_files))

/-- An acquisition or release of the advisory lock by one process. -/
inductive LockEv where
  | acq (pid : Nat) (exclusive : Bool)
  | rel (pid : Nat)
deriving DecidableEq

/-- Modelled from the spec: the `flock(2)` semantics behind `fd_lock`, which
the source invokes but does not define.  The state is the list of current
holders with their modes, or `none` once an impossible step has occurred.  An
acquisition can take effect only when compatible: an exclusive mode requires no
other holder, a shared mode requires no exclusive holder (a blocked process
simply acquires later, so incompatible acquisitions never appear in a valid
trace); the lock is not reentrant. -/
def lockStep (st : Option (List (Nat × Bool))) (ev : LockEv) :
    Option (List (Nat × Bool)) :=
  st.bind (fun hs =>
    match ev with
    | .acq p e =>
      if hs.any (fun h => h.1 == p) then none
      else if e then (if hs.isEmpty then some ((p, e) :: hs) else none)
      else if hs.any (fun h => h.2) then none
      else some ((p, e) :: hs)
    | .rel p =>
      if hs.any (fun h => h.1 == p) then some (hs.filter (fun h => h.1 != p))
      else none)

/-- Whether an interleaving of lock events can actually happen under the
`flock` semantics, starting from an unheld lock. -/
def validTrace (tr : List LockEv) : Bool :=
  (tr.foldl lockStep (some [])).isSome

/-- One entry of a zip archive: its directory flag, its path components, and
its content (empty for directories). -/
structure ZipEntry where
  isDir : Bool
  path : List String
  content : String
deriving DecidableEq

/-- Modelled from the spec: the per-entry step of `extract_zip_stream`, whose
implementation is not among the given sources (only its tests are).  Following
section 4.3 of the specification: strip the first `ignore_root_dirs` path
components; skip the entry when its stripped path is empty; otherwise
materialize it, preserving the directory/file distinction and creating any
missing intermediate directories even when no explicit directory entry
exists. -/
def zipStep (ignore_root_dirs : Nat) (fs : FSTree) (e : ZipEntry) : FSTree :=
  if e.path.drop ignore_root_dirs = [] then fs
  else if e.isDir then fs.mkdirs (e.path.drop ignore_root_dirs)
  else (fs.mkdirs (e.path.drop ignore_root_dirs).dropLast).writeFile
    (e.path.drop ignore_root_dirs) e.content

/-- Modelled from the spec: `extract_zip_stream` itself, the fold of the
per-entry step over the archive's entries, starting from the empty
destination. -/
def extract_zip_stream (entries : List ZipEntry) (ignore_root_dirs : Nat) : FSTree :=
  entries.foldl (zipStep ignore_root_dirs) FSTree.empty

/-! ### Specification combinators describing the copy loop's effect -/

/-- The filesystem effect of one copy-loop iteration, the record set aside. -/
def fsStep (src dst : Path) (exclude : List Path) (g : FSTree) (e : Entry) : FSTree :=
  (copyStep src dst exclude (g, []) e).1

/-- Whether the copy loop keeps an entry (its src-relative path is not
excluded). -/
def keptB (src : Path) (exclude : List Path) (e : Entry) : Bool :=
  !decide (relpath e.2 src ∈ exclude)

/-- The record target of an entry. -/
def retarget (src dst : Path) (e : Entry) : Entry :=
  (e.1, dst ++ relpath e.2 src)

/-- The empty-skeleton counterpart of a subdirectory listing. -/
def skel (ds : List (String × FSTree)) : List (String × FSTree) :=
  ds.map (fun d => (d.1, FSTree.empty))

/-- All nonempty prefixes of a path. -/
def nonNilPrefixes : Path → List Path
  | [] => []
  | n :: rest => [n] :: (nonNilPrefixes rest).map (fun q => n :: q)

/-- The dst-relative directories the copy loop creates for a list of entries:
for a kept directory entry, every nonempty prefix of its relative path; for a
kept file entry, every nonempty prefix of its parent's relative path. -/
def neededDirs (src : Path) (exclude : List Path) (l : List Entry) : List Path :=
  (l.filter (keptB src exclude)).flatMap
    (fun e => if e.1 = 'd' then nonNilPrefixes (relpath e.2 src)
      else nonNilPrefixes (relpath e.2 src).dropLast)

/-- The dst-relative paths of the kept file entries. -/
def keptFileRels (src : Path) (exclude : List Path) (l : List Entry) : List Path :=
  ((l.filter (keptB src exclude)).filter (fun e => decide (e.1 = 'f'))).map
    (fun e => relpath e.2 src)

/-- The destination-relative directories `extract_zip_stream` creates: for
each archive entry whose stripped path is nonempty, every nonempty prefix of
the stripped path (directory entry) or of its parent (file entry). -/
def strippedDirs (entries : List ZipEntry) (ignore_root_dirs : Nat) : List Path :=
  entries.flatMap (fun e =>
    let p := e.path.drop ignore_root_dirs
    if p = [] then []
    else if e.isDir then nonNilPrefixes p
    else nonNilPrefixes p.dropLast)

/-- The destination-relative paths of the files `extract_zip_stream` writes:
the stripped paths of the non-directory entries whose stripped path is
nonempty. -/
def strippedFiles (entries : List ZipEntry) (ignore_root_dirs : Nat) : List Path :=
  (entries.filter
      (fun e => !e.isDir && !decide (e.path.drop ignore_root_dirs = []))).map
    (fun e => e.path.drop ignore_root_dirs)

/-! ### Concrete filesystems used to witness the theorems -/

/-- A three-level tree: directories a and a/b, files z, a/y, a/b/c. -/
def fxTree : FSTree :=
  .mk [("a", .mk [("b", .mk [] [("c", "1")])] [("y", "2")])] [("z", "3")]

/-- A root holding `fxTree` at directory r. -/
def fxRoot : FSTree := .mk [("r", fxTree)] []

/-- Source s (a file a and a directory u), destination d absent. -/
def fxMove : FSTree := .mk [("s", .mk [("u", .mk [] [])] [("a", "x")])] []

/-- The subtree of `fxMove` at s. -/
def fxMoveSub : FSTree := .mk [("u", .mk [] [])] [("a", "x")]

/-- Source s with a file a, destination d already holding a file b. -/
def fxMoveBusy : FSTree := .mk [("s", .mk [] [("a", "x")]), ("d", .mk [] [("b", "y")])] []

/-- Source s holding directory a with file a/x below it. -/
def fxExclude : FSTree := .mk [("s", .mk [("a", .mk [] [("x", "c")])] [])] []

/-- The subtree of `fxExclude` at s. -/
def fxExcludeSub : FSTree := .mk [("a", .mk [] [("x", "c")])] []

/-- Source s holding directory a with file a/x below it, next to an existing
empty destination directory d. -/
def fxExclude2 : FSTree :=
  .mk [("s", .mk [("a", .mk [] [("x", "c")])] []), ("d", .mk [] [])] []

/-- A directory a holding one file f. -/
def fxSmall : FSTree := .mk [("a", .mk [] [("f", "x")])] []

/-- Student tree sub/a, workspace w, script directory scripts/files with a
file of the same name a as the student file. -/
def fxSetupClash : FSTree :=
  .mk [("sub", .mk [] [("a", "x")]), ("w", .mk [] []),
    ("scripts", .mk [("files", .mk [] [("a", "y")])] [])] []

/-- Student tree sub/a, workspace w, script directory scripts/files with a
file b distinct from every student path. -/
def fxSetupOk : FSTree :=
  .mk [("sub", .mk [] [("a", "x")]), ("w", .mk [] []),
    ("scripts", .mk [("files", .mk [] [("b", "y")])] [])] []

/-! ### Association-list lemmas -/

theorem lookupA_updateA_self {κ α : Type} [DecidableEq κ] (l : List (κ × α)) (k : κ) (w : α)
    (h : (lookupA l k).isSome) : lookupA (updateA l k w) k = some w := by
  induction l with
  | nil => simp [lookupA] at h
  | cons kv rest ih =>
    obtain ⟨k', v⟩ := kv
    by_cases hk : k' = k
    · subst hk
      simp [lookupA, updateA]
    · simp only [lookupA, updateA, if_neg hk] at h ⊢
      exact ih h

theorem lookupA_updateA_ne {κ α : Type} [DecidableEq κ] (l : List (κ × α)) (k m : κ) (w : α)
    (h : m ≠ k) : lookupA (updateA l k w) m = lookupA l m := by
  induction l with
  | nil => simp [updateA]
  | cons kv rest ih =>
    obtain ⟨k', v⟩ := kv
    by_cases hk : k' = k
    · subst hk
      have hm : ¬ (k' = m) := fun hh => h hh.symm
      simp [updateA, lookupA, if_neg hm]
    · simp only [updateA, if_neg hk, lookupA]
      by_cases hm : k' = m
      · simp [hm]
      · simp [hm, ih]

theorem updateA_lookup_self {κ α : Type} [DecidableEq κ] (l : List (κ × α)) (k : κ) (v : α)
    (h : lookupA l k = some v) : updateA l k v = l := by
  induction l with
  | nil => simp [updateA]
  | cons kv rest ih =>
    obtain ⟨k', v'⟩ := kv
    by_cases hk : k' = k
    · subst hk
      simp [lookupA] at h
      simp [updateA, h]
    · simp only [lookupA, if_neg hk] at h
      simp [updateA, if_neg hk, ih h]

theorem updateA_keys {κ α : Type} [DecidableEq κ] (l : List (κ × α)) (k : κ) (w : α) :
    (updateA l k w).map Prod.fst = l.map Prod.fst := by
  induction l with
  | nil => simp [updateA]
  | cons kv rest ih =>
    obtain ⟨k', v⟩ := kv
    by_cases hk : k' = k
    · simp [updateA, hk]
    · simp [updateA, if_neg hk, ih]

theorem lookupA_append_of_none {κ α : Type} [DecidableEq κ] {l1 : List (κ × α)}
    (l2 : List (κ × α)) {k : κ} (h : lookupA l1 k = none) :
    lookupA (l1 ++ l2) k = lookupA l2 k := by
  induction l1 with
  | nil => simp
  | cons kv rest ih =>
    obtain ⟨k', v⟩ := kv
    by_cases hk : k' = k
    · simp [lookupA, hk] at h
    · simp only [lookupA, if_neg hk] at h
      simpa [lookupA, if_neg hk] using ih h

theorem lookupA_append_of_some {κ α : Type} [DecidableEq κ] {l1 : List (κ × α)}
    (l2 : List (κ × α)) {k : κ} {v : α} (h : lookupA l1 k = some v) :
    lookupA (l1 ++ l2) k = some v := by
  induction l1 with
  | nil => simp [lookupA] at h
  | cons kv rest ih =>
    obtain ⟨k', v'⟩ := kv
    by_cases hk : k' = k
    · simp only [lookupA, if_pos hk] at h
      simp [lookupA, if_pos hk, h]
    · simp only [lookupA, if_neg hk] at h
      simpa [lookupA, if_neg hk] using ih h

theorem lookupA_single_self {κ α : Type} [DecidableEq κ] (k : κ) (v : α) :
    lookupA [(k, v)] k = some v := by
  simp [lookupA]

theorem lookupA_single_ne {κ α : Type} [DecidableEq κ] (k m : κ) (v : α) (h : m ≠ k) :
    lookupA [(k, v)] m = none := by
  have hk : ¬ (k = m) := fun hh => h hh.symm
  simp [lookupA, hk]

theorem lookupA_eq_none_iff {κ α : Type} [DecidableEq κ] (l : List (κ × α)) (k : κ) :
    lookupA l k = none ↔ k ∉ l.map Prod.fst := by
  induction l with
  | nil => simp [lookupA]
  | cons kv rest ih =>
    obtain ⟨k', v⟩ := kv
    by_cases hk : k' = k
    · subst hk
      simp [lookupA]
    · simp only [lookupA, if_neg hk, List.map_cons, List.mem_cons]
      rw [ih]
      constructor
      · rintro hnot (h1 | h2)
        · exact hk h1.symm
        · exact hnot h2
      · intro hn h2
        exact hn (Or.inr h2)

theorem lookupA_mem {κ α : Type} [DecidableEq κ] {l : List (κ × α)} {k : κ} {v : α}
    (h : lookupA l k = some v) : (k, v) ∈ l := by
  induction l with
  | nil => simp [lookupA] at h
  | cons kv rest ih =>
    obtain ⟨k', v'⟩ := kv
    by_cases hk : k' = k
    · subst hk
      simp [lookupA] at h
      simp [h]
    · simp only [lookupA, if_neg hk] at h
      exact List.mem_cons_of_mem _ (ih h)

theorem lookupA_of_mem_nodup {κ α : Type} [DecidableEq κ] {l : List (κ × α)} {k : κ} {v : α}
    (hn : (l.map Prod.fst).Nodup) (hm : (k, v) ∈ l) : lookupA l k = some v := by
  induction l with
  | nil => simp at hm
  | cons kv rest ih =>
    obtain ⟨k', v'⟩ := kv
    simp only [List.map_cons, List.nodup_cons] at hn
    rcases List.mem_cons.mp hm with heq | hmem
    · obtain ⟨h1, h2⟩ := Prod.mk.injEq .. ▸ heq.symm
      simp [lookupA, h1.symm, h2]
    · have hk : k' ≠ k := by
        intro he
        exact hn.1 (he ▸ List.mem_map_of_mem Prod.fst hmem)
      simp [lookupA, if_neg hk, ih hn.2 hmem]

theorem lookupA_setA_self {κ α : Type} [DecidableEq κ] (l : List (κ × α)) (k : κ) (v : α) :
    lookupA (setA l k v) k = some v := by
  induction l with
  | nil => simp [setA, lookupA]
  | cons kv rest ih =>
    obtain ⟨k', v'⟩ := kv
    by_cases hk : k' = k
    · simp [setA, hk, lookupA]
    · simp [setA, if_neg hk, lookupA, if_neg hk, ih]

theorem lookupA_setA_ne {κ α : Type} [DecidableEq κ] (l : List (κ × α)) (k m : κ) (v : α)
    (h : m ≠ k) : lookupA (setA l k v) m = lookupA l m := by
  induction l with
  | nil =>
    have hm : ¬ (k = m) := fun hh => h hh.symm
    simp [setA, lookupA, if_neg hm]
  | cons kv rest ih =>
    obtain ⟨k', v'⟩ := kv
    by_cases hk : k' = k
    · subst hk
      have hm : ¬ (k' = m) := fun hh => h hh.symm
      simp [setA, lookupA, if_neg hm]
    · simp only [setA, if_neg hk, lookupA]
      by_cases hm : k' = m
      · simp [hm]
      · simp [hm, ih]

theorem setA_of_absent {κ α : Type} [DecidableEq κ] (l : List (κ × α)) (k : κ) (v : α)
    (h : lookupA l k = none) : setA l k v = l ++ [(k, v)] := by
  induction l with
  | nil => simp [setA]
  | cons kv rest ih =>
    obtain ⟨k', v'⟩ := kv
    by_cases hk : k' = k
    · simp [lookupA, hk] at h
    · simp only [lookupA, if_neg hk] at h
      simp [setA, if_neg hk, ih h]

theorem lookupA_removeA_self {κ α : Type} [DecidableEq κ] (l : List (κ × α)) (k : κ) :
    lookupA (removeA l k) k = none := by
  induction l with
  | nil => simp [removeA, lookupA]
  | cons kv rest ih =>
    obtain ⟨k', v'⟩ := kv
    by_cases hk : k' = k
    · simpa [removeA, hk] using ih
    · simpa [removeA, if_neg hk, lookupA, if_neg hk] using ih

theorem lookupA_removeA_ne {κ α : Type} [DecidableEq κ] (l : List (κ × α)) (k m : κ)
    (h : m ≠ k) : lookupA (removeA l k) m = lookupA l m := by
  induction l with
  | nil => simp [removeA]
  | cons kv rest ih =>
    obtain ⟨k', v'⟩ := kv
    by_cases hk : k' = k
    · subst hk
      have hm : ¬ (k' = m) := fun hh => h hh.symm
      simpa [removeA, lookupA, if_neg hm] using ih
    · simp only [removeA, if_neg hk, lookupA]
      by_cases hm : k' = m
      · simp [hm]
      · simp [if_neg hm, ih]

theorem nodupB_iff (l : List String) : nodupB l = true ↔ l.Nodup := by
  induction l with
  | nil => simp [nodupB]
  | cons x xs ih => simp [nodupB, ih, List.nodup_cons]

/-! ### Navigation lemmas -/

theorem findDir?_nil (t : FSTree) : t.findDir? [] = some t := by
  obtain ⟨ds, fs⟩ := t
  rfl

theorem findDir?_append (t : FSTree) (p q : Path) :
    t.findDir? (p ++ q) = (t.findDir? p).bind (fun u => u.findDir? q) := by
  induction p generalizing t with
  | nil => simp [FSTree.findDir?]
  | cons n rest ih =>
    obtain ⟨ds, fs⟩ := t
    simp only [List.cons_append, FSTree.findDir?]
    cases lookupA ds n with
    | none => rfl
    | some sub => simpa using ih sub

theorem findFile?_nil (t : FSTree) : t.findFile? [] = none := rfl

theorem findFile?_append (t : FSTree) (p q : Path) (hq : q ≠ []) :
    t.findFile? (p ++ q) = (t.findDir? p).bind (fun u => u.findFile? q) := by
  have hlast : (p ++ q).getLast? = q.getLast? := by
    rw [List.getLast?_append]
    cases hq2 : q.getLast? with
    | none => exact absurd (by simpa using hq2) hq
    | some x => rfl
  have hdrop : (p ++ q).dropLast = p ++ q.dropLast := List.dropLast_append_of_ne_nil _ hq
  simp only [FSTree.findFile?, hlast, hdrop, findDir?_append]
  cases hq2 : q.getLast? with
  | none => simp
  | some x =>
    cases t.findDir? p with
    | none => rfl
    | some u => rfl

theorem findFile?_single (ds : List (String × FSTree)) (fs : List (String × String))
    (n : String) : (FSTree.mk ds fs).findFile? [n] = lookupA fs n := rfl

theorem isDir_nil (t : FSTree) : t.isDir [] = true := by
  simp [FSTree.isDir, findDir?_nil]

/-- If no directory exists at `d`, nothing exists strictly below `d`. -/
theorem findDir?_below_none {t : FSTree} {d : Path} (h : t.findDir? d = none)
    (q : Path) : t.findDir? (d ++ q) = none := by
  rw [findDir?_append, h]
  rfl

theorem findFile?_below_none {t : FSTree} {d : Path} (h : t.findDir? d = none)
    {q : Path} (hq : q ≠ []) : t.findFile? (d ++ q) = none := by
  rw [findFile?_append _ _ _ hq, h]
  rfl

/-- Nothing exists strictly below an empty directory. -/
theorem findDir?_below_empty {t : FSTree} {d : Path}
    (h : t.findDir? d = some (FSTree.mk [] [])) {q : Path} (hq : q ≠ []) :
    t.findDir? (d ++ q) = none := by
  rw [findDir?_append, h]
  obtain ⟨n, r, rfl⟩ : ∃ n r, q = n :: r := by
    cases q with
    | nil => exact absurd rfl hq
    | cons a b => exact ⟨a, b, rfl⟩
  simp [FSTree.findDir?, lookupA]

theorem findFile?_below_empty {t : FSTree} {d : Path}
    (h : t.findDir? d = some (FSTree.mk [] [])) {q : Path} (hq : q ≠ []) :
    t.findFile? (d ++ q) = none := by
  rw [findFile?_append _ _ _ hq, h]
  cases q with
  | nil => exact absurd rfl hq
  | cons n r =>
    cases r with
    | nil => simp [findFile?_single, lookupA]
    | cons m r2 =>
      have : (FSTree.mk [] []).findDir? ((n :: m :: r2).dropLast) = none := by
        cases hd : (n :: m :: r2).dropLast with
        | nil => simp at hd
        | cons a b => simp [FSTree.findDir?, lookupA]
      simp only [Option.some_bind, FSTree.findFile?, this]
      cases hq2 : (n :: m :: r2).getLast? <;> rfl

/-! ### Lemmas about mkdirs -/

theorem updateA_updateA {κ α : Type} [DecidableEq κ] (l : List (κ × α)) (k : κ) (a b : α) :
    updateA (updateA l k a) k b = updateA l k b := by
  induction l with
  | nil => simp [updateA]
  | cons kv rest ih =>
    obtain ⟨k', v⟩ := kv
    by_cases hk : k' = k
    · simp [updateA, hk]
    · simp [updateA, if_neg hk, ih]

theorem mkdirs_nil (t : FSTree) : t.mkdirs [] = t := by
  obtain ⟨ds, fs⟩ := t
  rfl

theorem findDir?_empty_of_ne_nil {x : Path} (hx : x ≠ []) :
    FSTree.empty.findDir? x = none := by
  cases x with
  | nil => exact absurd rfl hx
  | cons m xr => simp [FSTree.empty, FSTree.findDir?, lookupA]

theorem isDir_empty_iff (x : Path) : FSTree.empty.isDir x = true ↔ x = [] := by
  cases x with
  | nil => simp [isDir_nil]
  | cons a b => simp [FSTree.isDir, findDir?_empty_of_ne_nil (List.cons_ne_nil a b)]

theorem findFile?_empty (x : Path) : FSTree.empty.findFile? x = none := by
  cases x with
  | nil => rfl
  | cons m xr =>
    cases hd : (m :: xr).dropLast with
    | nil =>
      simp only [FSTree.findFile?, hd, findDir?_nil]
      cases hq : (m :: xr).getLast? with
      | none => rfl
      | some a => simp [FSTree.empty, FSTree.files, lookupA]
    | cons a b =>
      simp only [FSTree.findFile?, hd, findDir?_empty_of_ne_nil (List.cons_ne_nil a b)]
      cases hq : (m :: xr).getLast? <;> rfl

/-- `os.makedirs(p, exist_ok=True)` on an existing directory changes nothing. -/
theorem mkdirs_of_isDir {t : FSTree} {p : Path} (h : (t.findDir? p).isSome) :
    t.mkdirs p = t := by
  induction p generalizing t with
  | nil => exact mkdirs_nil t
  | cons n rest ih =>
    obtain ⟨ds, fs⟩ := t
    simp only [FSTree.findDir?] at h
    cases hl : lookupA ds n with
    | none => rw [hl] at h; simp at h
    | some sub =>
      rw [hl] at h
      simp only [FSTree.mkdirs, hl]
      rw [ih h, updateA_lookup_self ds n sub hl]

/-- A directory exists after `mkdirs q` exactly when it existed before or is a
prefix of `q` (every prefix of the requested path is created). -/
theorem isDir_mkdirs (t : FSTree) (q x : Path) :
    (t.mkdirs q).isDir x = true ↔ t.isDir x = true ∨ x <+: q := by
  induction q generalizing t x with
  | nil =>
    rw [mkdirs_nil]
    constructor
    · exact fun h => Or.inl h
    · rintro (h | h)
      · exact h
      · rw [List.prefix_nil.mp h]
        exact isDir_nil t
  | cons n rest ih =>
    obtain ⟨ds, fs⟩ := t
    cases hl : lookupA ds n with
    | some sub =>
      simp only [FSTree.mkdirs, hl]
      cases x with
      | nil => simp [isDir_nil]
      | cons m xr =>
        by_cases hm : m = n
        · subst hm
          have hsome : (lookupA ds m).isSome := by rw [hl]; rfl
          simp only [FSTree.isDir, FSTree.findDir?,
            lookupA_updateA_self ds m (sub.mkdirs rest) hsome, hl]
          rw [show ((sub.mkdirs rest).findDir? xr).isSome = (sub.mkdirs rest).isDir xr from rfl]
          rw [show (sub.findDir? xr).isSome = sub.isDir xr from rfl]
          rw [ih sub xr]
          simp [List.cons_prefix_cons]
        · have hne : ¬ ((m :: xr) <+: (n :: rest)) := by
            simp [List.cons_prefix_cons, hm]
          simp only [FSTree.isDir, FSTree.findDir?,
            lookupA_updateA_ne ds n m (sub.mkdirs rest) hm, hne, or_false]
    | none =>
      simp only [FSTree.mkdirs, hl]
      cases x with
      | nil => simp [isDir_nil]
      | cons m xr =>
        by_cases hm : m = n
        · subst hm
          have happ : lookupA (ds ++ [(m, FSTree.empty.mkdirs rest)]) m
              = some (FSTree.empty.mkdirs rest) :=
            (lookupA_append_of_none _ hl).trans (lookupA_single_self _ _)
          simp only [FSTree.isDir, FSTree.findDir?, happ, hl]
          rw [show ((FSTree.empty.mkdirs rest).findDir? xr).isSome = true
                ↔ (FSTree.empty.mkdirs rest).isDir xr = true from Iff.rfl]
          rw [ih FSTree.empty xr]
          simp only [isDir_empty_iff, List.cons_prefix_cons, true_and]
          constructor
          · rintro (h | h)
            · exact Or.inr (h ▸ List.nil_prefix)
            · exact Or.inr h
          · rintro (h | h)
            · simp at h
            · exact Or.inr h
        · have hne : ¬ ((m :: xr) <+: (n :: rest)) := by
            simp [List.cons_prefix_cons, hm]
          have happ : lookupA (ds ++ [(n, FSTree.empty.mkdirs rest)]) m = lookupA ds m := by
            cases hds : lookupA ds m with
            | none =>
              rw [lookupA_append_of_none _ hds, lookupA_single_ne _ _ _ hm]
            | some v => exact lookupA_append_of_some _ hds
          simp only [FSTree.isDir, FSTree.findDir?, happ, hne, or_false]

/-- `mkdirs` creates no files and changes no file: every file lookup is
unchanged. -/
theorem findFile?_mkdirs (t : FSTree) (q x : Path) :
    (t.mkdirs q).findFile? x = t.findFile? x := by
  induction q generalizing t x with
  | nil => rw [mkdirs_nil]
  | cons n rest ih =>
    obtain ⟨ds, fs⟩ := t
    cases x with
    | nil => simp [findFile?_nil]
    | cons m xr =>
      cases hl : lookupA ds n with
      | some sub =>
        simp only [FSTree.mkdirs, hl]
        cases hxr : xr with
        | nil => rfl
        | cons a b =>
          rw [show (m :: a :: b) = [m] ++ (a :: b) from rfl,
            findFile?_append _ _ _ (List.cons_ne_nil a b),
            findFile?_append _ _ _ (List.cons_ne_nil a b)]
          by_cases hm : m = n
          · subst hm
            have hsome : (lookupA ds m).isSome := by rw [hl]; rfl
            simp only [FSTree.findDir?, lookupA_updateA_self ds m (sub.mkdirs rest) hsome, hl]
            simpa using ih sub (a :: b)
          · simp only [FSTree.findDir?, lookupA_updateA_ne ds n m (sub.mkdirs rest) hm]
      | none =>
        simp only [FSTree.mkdirs, hl]
        cases hxr : xr with
        | nil => rfl
        | cons a b =>
          rw [show (m :: a :: b) = [m] ++ (a :: b) from rfl,
            findFile?_append _ _ _ (List.cons_ne_nil a b),
            findFile?_append _ _ _ (List.cons_ne_nil a b)]
          by_cases hm : m = n
          · subst hm
            have happ : lookupA (ds ++ [(m, FSTree.empty.mkdirs rest)]) m
                = some (FSTree.empty.mkdirs rest) :=
              (lookupA_append_of_none _ hl).trans (lookupA_single_self _ _)
            simp only [FSTree.findDir?, happ, hl, Option.some_bind, Option.none_bind]
            rw [ih FSTree.empty (a :: b), findFile?_empty]
          · have happ : lookupA (ds ++ [(n, FSTree.empty.mkdirs rest)]) m
                = lookupA ds m := by
              cases hds : lookupA ds m with
              | none =>
                rw [lookupA_append_of_none _ hds, lookupA_single_ne _ _ _ hm]
              | some v => exact lookupA_append_of_some _ hds
            simp only [FSTree.findDir?, happ]

/-- `mkdirs q` leaves the subtree at any path that neither contains nor is
contained in `q` untouched. -/
theorem findDir?_mkdirs_indep {t : FSTree} {q x : Path} (h1 : ¬ q <+: x) (h2 : ¬ x <+: q) :
    (t.mkdirs q).findDir? x = t.findDir? x := by
  induction q generalizing t x with
  | nil => exact absurd (List.nil_prefix) h1
  | cons n rest ih =>
    cases x with
    | nil => exact absurd (List.nil_prefix) h2
    | cons m xr =>
      obtain ⟨ds, fs⟩ := t
      cases hl : lookupA ds n with
      | some sub =>
        simp only [FSTree.mkdirs, hl]
        by_cases hm : m = n
        · subst hm
          have h1' : ¬ rest <+: xr := fun hh => h1 (List.cons_prefix_cons.mpr ⟨rfl, hh⟩)
          have h2' : ¬ xr <+: rest := fun hh => h2 (List.cons_prefix_cons.mpr ⟨rfl, hh⟩)
          have hsome : (lookupA ds m).isSome := by rw [hl]; rfl
          simp only [FSTree.findDir?, lookupA_updateA_self ds m (sub.mkdirs rest) hsome, hl]
          exact ih h1' h2'
        · simp only [FSTree.findDir?, lookupA_updateA_ne ds n m (sub.mkdirs rest) hm]
      | none =>
        simp only [FSTree.mkdirs, hl]
        by_cases hm : m = n
        · subst hm
          have hxr : xr ≠ [] := by
            intro he
            exact h2 (by simp [he, List.cons_prefix_cons])
          have h1' : ¬ rest <+: xr := fun hh => h1 (List.cons_prefix_cons.mpr ⟨rfl, hh⟩)
          have h2' : ¬ xr <+: rest := fun hh => h2 (List.cons_prefix_cons.mpr ⟨rfl, hh⟩)
          have happ : lookupA (ds ++ [(m, FSTree.empty.mkdirs rest)]) m
              = some (FSTree.empty.mkdirs rest) :=
            (lookupA_append_of_none _ hl).trans (lookupA_single_self _ _)
          simp only [FSTree.findDir?, happ, hl]
          rw [ih h1' h2', findDir?_empty_of_ne_nil hxr]
        · have happ : lookupA (ds ++ [(n, FSTree.empty.mkdirs rest)]) m
              = lookupA ds m := by
            cases hds : lookupA ds m with
            | none =>
              rw [lookupA_append_of_none _ hds, lookupA_single_ne _ _ _ hm]
            | some v => exact lookupA_append_of_some _ hds
          simp only [FSTree.findDir?, happ]

/-- After `mkdirs q` on a filesystem with no directory at `q`, the directory at
`q` is empty (each missing suffix component is created fresh). -/
theorem findDir?_mkdirs_self_of_none {t : FSTree} {q : Path} (h : t.findDir? q = none) :
    (t.mkdirs q).findDir? q = some FSTree.empty := by
  induction q generalizing t with
  | nil => rw [findDir?_nil] at h; exact absurd h (by simp)
  | cons n rest ih =>
    obtain ⟨ds, fs⟩ := t
    cases hl : lookupA ds n with
    | some sub =>
      simp only [FSTree.findDir?, hl] at h
      have hsome : (lookupA ds n).isSome := by rw [hl]; rfl
      simp only [FSTree.mkdirs, hl, FSTree.findDir?,
        lookupA_updateA_self ds n (sub.mkdirs rest) hsome]
      exact ih h
    | none =>
      have happ : lookupA (ds ++ [(n, FSTree.empty.mkdirs rest)]) n
          = some (FSTree.empty.mkdirs rest) :=
        (lookupA_append_of_none _ hl).trans (lookupA_single_self _ _)
      simp only [FSTree.mkdirs, hl, FSTree.findDir?, happ]
      cases rest with
      | nil => rw [mkdirs_nil]; exact findDir?_nil _
      | cons a b =>
        exact ih (findDir?_empty_of_ne_nil (List.cons_ne_nil a b))

/-- Creating a fresh child of an existing directory appends it, empty, at the
end of the parent's listing; expressed through `setDir`. -/
theorem mkdirs_append_child {t : FSTree} {p : Path} {ds : List (String × FSTree)}
    {fs : List (String × String)} (h : t.findDir? p = some (.mk ds fs)) {n : String}
    (hn : lookupA ds n = none) :
    t.mkdirs (p ++ [n]) = t.setDir p (.mk (ds ++ [(n, FSTree.empty)]) fs) := by
  induction p generalizing t with
  | nil =>
    rw [findDir?_nil] at h
    obtain rfl : t = FSTree.mk ds fs := by injection h
    simp [FSTree.mkdirs, hn, FSTree.setDir, mkdirs_nil, FSTree.empty]
  | cons a rest ih =>
    obtain ⟨ds0, fs0⟩ := t
    simp only [FSTree.findDir?] at h
    cases hl : lookupA ds0 a with
    | none => rw [hl] at h; exact absurd h (by simp)
    | some sub =>
      simp only [hl] at h
      simp only [List.cons_append, FSTree.mkdirs, hl, FSTree.setDir, List.append_eq, ih h]

/-! ### Lemmas about setDir -/

theorem setDir_nil (t u : FSTree) : t.setDir [] u = u := by
  obtain ⟨ds, fs⟩ := t
  rfl

theorem findDir?_setDir_below {t : FSTree} {p : Path} (h : (t.findDir? p).isSome)
    (u : FSTree) (r : Path) : (t.setDir p u).findDir? (p ++ r) = u.findDir? r := by
  induction p generalizing t with
  | nil => rw [setDir_nil]; rfl
  | cons n rest ih =>
    obtain ⟨ds, fs⟩ := t
    simp only [FSTree.findDir?] at h
    cases hl : lookupA ds n with
    | none => rw [hl] at h; simp at h
    | some sub =>
      rw [hl] at h
      have hsome : (lookupA ds n).isSome := by rw [hl]; rfl
      simp only [FSTree.setDir, hl, List.cons_append, FSTree.findDir?,
        lookupA_updateA_self ds n (sub.setDir rest u) hsome]
      exact ih h

theorem findDir?_setDir_self {t : FSTree} {p : Path} (h : (t.findDir? p).isSome)
    (u : FSTree) : (t.setDir p u).findDir? p = some u := by
  have := findDir?_setDir_below h u []
  rwa [List.append_nil, findDir?_nil] at this

theorem findDir?_setDir_indep {t : FSTree} {p x : Path} (u : FSTree)
    (h1 : ¬ p <+: x) (h2 : ¬ x <+: p) :
    (t.setDir p u).findDir? x = t.findDir? x := by
  induction p generalizing t x with
  | nil => exact absurd (List.nil_prefix) h1
  | cons n rest ih =>
    cases x with
    | nil => exact absurd (List.nil_prefix) h2
    | cons m xr =>
      obtain ⟨ds, fs⟩ := t
      cases hl : lookupA ds n with
      | none => simp only [FSTree.setDir, hl]
      | some sub =>
        simp only [FSTree.setDir, hl]
        by_cases hm : m = n
        · subst hm
          have h1' : ¬ rest <+: xr := fun hh => h1 (List.cons_prefix_cons.mpr ⟨rfl, hh⟩)
          have h2' : ¬ xr <+: rest := fun hh => h2 (List.cons_prefix_cons.mpr ⟨rfl, hh⟩)
          have hsome : (lookupA ds m).isSome := by rw [hl]; rfl
          simp only [FSTree.findDir?, lookupA_updateA_self ds m (sub.setDir rest u) hsome, hl]
          exact ih h1' h2'
        · simp only [FSTree.findDir?, lookupA_updateA_ne ds n m (sub.setDir rest u) hm]

theorem findFile?_setDir_not_below {t : FSTree} {p x : Path} (u : FSTree)
    (h : ¬ p <+: x) : (t.setDir p u).findFile? x = t.findFile? x := by
  induction p generalizing t x with
  | nil => exact absurd (List.nil_prefix) h
  | cons n rest ih =>
    obtain ⟨ds, fs⟩ := t
    cases hl : lookupA ds n with
    | none => simp only [FSTree.setDir, hl]
    | some sub =>
      simp only [FSTree.setDir, hl]
      cases x with
      | nil => simp [findFile?_nil]
      | cons m xr =>
        cases hxr : xr with
        | nil => rfl
        | cons a b =>
          subst hxr
          rw [show (m :: a :: b) = [m] ++ (a :: b) from rfl,
            findFile?_append _ _ _ (List.cons_ne_nil a b),
            findFile?_append _ _ _ (List.cons_ne_nil a b)]
          by_cases hm : m = n
          · subst hm
            have h' : ¬ rest <+: (a :: b) :=
              fun hh => h (List.cons_prefix_cons.mpr ⟨rfl, hh⟩)
            have hsome : (lookupA ds m).isSome := by rw [hl]; rfl
            simp only [FSTree.findDir?,
              lookupA_updateA_self ds m (sub.setDir rest u) hsome, hl,
              Option.some_bind]
            exact ih h'
          · simp only [FSTree.findDir?, lookupA_updateA_ne ds n m (sub.setDir rest u) hm]

theorem setDir_setDir (t : FSTree) (p : Path) (u v : FSTree) :
    (t.setDir p u).setDir p v = t.setDir p v := by
  induction p generalizing t with
  | nil => rw [setDir_nil, setDir_nil]
  | cons n rest ih =>
    obtain ⟨ds, fs⟩ := t
    cases hl : lookupA ds n with
    | none => simp only [FSTree.setDir, hl]
    | some sub =>
      have hsome : (lookupA ds n).isSome := by rw [hl]; rfl
      simp only [FSTree.setDir, hl,
        lookupA_updateA_self ds n (sub.setDir rest u) hsome, updateA_updateA, ih]

theorem setDir_self {t : FSTree} {p : Path} {u : FSTree} (h : t.findDir? p = some u) :
    t.setDir p u = t := by
  induction p generalizing t with
  | nil =>
    rw [findDir?_nil] at h
    rw [setDir_nil]
    injection h with h
    exact h.symm
  | cons n rest ih =>
    obtain ⟨ds, fs⟩ := t
    simp only [FSTree.findDir?] at h
    cases hl : lookupA ds n with
    | none => rw [hl] at h; exact absurd h (by simp)
    | some sub =>
      rw [hl] at h
      simp only [FSTree.setDir, hl, ih h, updateA_lookup_self ds n sub hl]

theorem setDir_append_child {t : FSTree} {p : Path} {ds : List (String × FSTree)}
    {fs : List (String × String)} (h : t.findDir? p = some (.mk ds fs)) {n : String}
    {sub : FSTree} (hn : lookupA ds n = some sub) (u : FSTree) :
    t.setDir (p ++ [n]) u = t.setDir p (.mk (updateA ds n u) fs) := by
  induction p generalizing t with
  | nil =>
    rw [findDir?_nil] at h
    obtain rfl : t = FSTree.mk ds fs := by injection h
    simp [FSTree.setDir, hn, setDir_nil]
  | cons a rest ih =>
    obtain ⟨ds0, fs0⟩ := t
    simp only [FSTree.findDir?] at h
    cases hl : lookupA ds0 a with
    | none => rw [hl] at h; exact absurd h (by simp)
    | some sub0 =>
      simp only [hl] at h
      simp only [List.cons_append, FSTree.setDir, hl, List.append_eq, ih h]

/-! ### Lemmas about writeFile -/

theorem writeFile_nil (t : FSTree) (c : String) : t.writeFile [] c = t := by
  obtain ⟨ds, fs⟩ := t
  rfl

/-- Writing a file into an existing directory is a `setDir` of the parent with
the file listing updated. -/
theorem writeFile_append_child {t : FSTree} {p : Path} {ds : List (String × FSTree)}
    {fs : List (String × String)} (h : t.findDir? p = some (.mk ds fs)) (n : String)
    (c : String) : t.writeFile (p ++ [n]) c = t.setDir p (.mk ds (setA fs n c)) := by
  induction p generalizing t with
  | nil =>
    rw [findDir?_nil] at h
    obtain rfl : t = FSTree.mk ds fs := by injection h
    simp [FSTree.writeFile, FSTree.setDir, setFileA]
  | cons a rest ih =>
    obtain ⟨ds0, fs0⟩ := t
    simp only [FSTree.findDir?] at h
    cases hl : lookupA ds0 a with
    | none => rw [hl] at h; exact absurd h (by simp)
    | some sub =>
      simp only [hl] at h
      have hne : rest ++ [n] ≠ [] := by simp
      cases hr : rest ++ [n] with
      | nil => exact absurd hr hne
      | cons b bs =>
        simp only [List.cons_append, hr, FSTree.writeFile, hl, FSTree.setDir]
        rw [← hr, ih h]

/-- `writeFile` changes no directory structure: the existence of a directory at
any path is unchanged. -/
theorem isDir_writeFile (t : FSTree) (p : Path) (c : String) (x : Path) :
    (t.writeFile p c).isDir x = t.isDir x := by
  induction p generalizing t x with
  | nil => rw [writeFile_nil]
  | cons n rest ih =>
    obtain ⟨ds, fs⟩ := t
    cases rest with
    | nil =>
      cases x with
      | nil => simp [isDir_nil]
      | cons m xr => simp only [FSTree.writeFile, FSTree.isDir, FSTree.findDir?]
    | cons r rs =>
      cases x with
      | nil => simp [isDir_nil]
      | cons m xr =>
        cases hl : lookupA ds n with
        | none =>
          have hw : (FSTree.mk ds fs).writeFile (n :: r :: rs) c = FSTree.mk ds fs := by
            simp only [FSTree.writeFile, hl]
          rw [hw]
        | some sub =>
          have hw : (FSTree.mk ds fs).writeFile (n :: r :: rs) c
              = FSTree.mk (updateA ds n (sub.writeFile (r :: rs) c)) fs := by
            simp only [FSTree.writeFile, hl]
          rw [hw]
          by_cases hm : m = n
          · subst hm
            have hsome : (lookupA ds m).isSome := by rw [hl]; rfl
            simp only [FSTree.isDir, FSTree.findDir?,
              lookupA_updateA_self ds m (sub.writeFile (r :: rs) c) hsome, hl]
            exact ih sub xr
          · simp only [FSTree.isDir, FSTree.findDir?,
              lookupA_updateA_ne ds n m (sub.writeFile (r :: rs) c) hm]

/-- `writeFile p` leaves the subtree at any path not above `p` unchanged. -/
theorem findDir?_writeFile_not_above {t : FSTree} {p x : Path} (c : String)
    (h : ¬ x <+: p) : (t.writeFile p c).findDir? x = t.findDir? x := by
  induction p generalizing t x with
  | nil => rw [writeFile_nil]
  | cons n rest ih =>
    obtain ⟨ds, fs⟩ := t
    cases x with
    | nil => exact absurd (List.nil_prefix) h
    | cons m xr =>
      cases rest with
      | nil => simp only [FSTree.writeFile, FSTree.findDir?]
      | cons r rs =>
        cases hl : lookupA ds n with
        | none =>
          have hw : (FSTree.mk ds fs).writeFile (n :: r :: rs) c = FSTree.mk ds fs := by
            simp only [FSTree.writeFile, hl]
          rw [hw]
        | some sub =>
          have hw : (FSTree.mk ds fs).writeFile (n :: r :: rs) c
              = FSTree.mk (updateA ds n (sub.writeFile (r :: rs) c)) fs := by
            simp only [FSTree.writeFile, hl]
          rw [hw]
          by_cases hm : m = n
          · subst hm
            have h' : ¬ xr <+: (r :: rs) := fun hh => h (List.cons_prefix_cons.mpr ⟨rfl, hh⟩)
            have hsome : (lookupA ds m).isSome := by rw [hl]; rfl
            simp only [FSTree.findDir?,
              lookupA_updateA_self ds m (sub.writeFile (r :: rs) c) hsome, hl]
            exact ih h'
          · simp only [FSTree.findDir?,
              lookupA_updateA_ne ds n m (sub.writeFile (r :: rs) c) hm]

/-- `writeFile p` changes no file other than the one at `p`. -/
theorem findFile?_writeFile_ne {t : FSTree} {p x : Path} (c : String) (h : x ≠ p) :
    (t.writeFile p c).findFile? x = t.findFile? x := by
  induction p generalizing t x with
  | nil => rw [writeFile_nil]
  | cons n rest ih =>
    obtain ⟨ds, fs⟩ := t
    cases rest with
    | nil =>
      have hw : (FSTree.mk ds fs).writeFile [n] c = FSTree.mk ds (setFileA fs n c) := rfl
      rw [hw]
      cases x with
      | nil => simp [findFile?_nil]
      | cons m xr =>
        cases xr with
        | nil =>
          have hm : m ≠ n := fun he => h (by rw [he])
          rw [findFile?_single, findFile?_single]
          exact lookupA_setA_ne fs n m c hm
        | cons a b =>
          rw [show (m :: a :: b) = [m] ++ (a :: b) from rfl,
            findFile?_append _ _ _ (List.cons_ne_nil a b),
            findFile?_append _ _ _ (List.cons_ne_nil a b)]
          simp only [FSTree.findDir?]
    | cons r rs =>
      cases hl : lookupA ds n with
      | none =>
        have hw : (FSTree.mk ds fs).writeFile (n :: r :: rs) c = FSTree.mk ds fs := by
          simp only [FSTree.writeFile, hl]
        rw [hw]
      | some sub =>
        have hw : (FSTree.mk ds fs).writeFile (n :: r :: rs) c
            = FSTree.mk (updateA ds n (sub.writeFile (r :: rs) c)) fs := by
          simp only [FSTree.writeFile, hl]
        rw [hw]
        cases x with
        | nil => simp [findFile?_nil]
        | cons m xr =>
          cases xr with
          | nil => rw [findFile?_single, findFile?_single]
          | cons a b =>
            rw [show (m :: a :: b) = [m] ++ (a :: b) from rfl,
              findFile?_append _ _ _ (List.cons_ne_nil a b),
              findFile?_append _ _ _ (List.cons_ne_nil a b)]
            by_cases hm : m = n
            · subst hm
              have h' : (a :: b) ≠ (r :: rs) := fun he => h (by rw [he])
              have hsome : (lookupA ds m).isSome := by rw [hl]; rfl
              simp only [FSTree.findDir?,
                lookupA_updateA_self ds m (sub.writeFile (r :: rs) c) hsome, hl,
                Option.some_bind]
              exact ih h'
            · simp only [FSTree.findDir?,
                lookupA_updateA_ne ds n m (sub.writeFile (r :: rs) c) hm]

/-! ### Lemmas about removeDir -/

theorem removeDir_nil (t : FSTree) : t.removeDir [] = t := by
  obtain ⟨ds, fs⟩ := t
  rfl

/-- After removing the directory at `p ≠ []`, no directory exists at `p`. -/
theorem isDir_removeDir_self (t : FSTree) {p : Path} (hp : p ≠ []) :
    (t.removeDir p).isDir p = false := by
  induction p generalizing t with
  | nil => exact absurd rfl hp
  | cons n rest ih =>
    obtain ⟨ds, fs⟩ := t
    cases rest with
    | nil =>
      simp only [FSTree.removeDir, FSTree.isDir, FSTree.findDir?, lookupA_removeA_self]
      rfl
    | cons r rs =>
      cases hl : lookupA ds n with
      | none =>
        have hw : (FSTree.mk ds fs).removeDir (n :: r :: rs) = FSTree.mk ds fs := by
          simp only [FSTree.removeDir, hl]
        rw [hw]
        simp [FSTree.isDir, FSTree.findDir?, hl]
      | some sub =>
        have hw : (FSTree.mk ds fs).removeDir (n :: r :: rs)
            = FSTree.mk (updateA ds n (sub.removeDir (r :: rs))) fs := by
          simp only [FSTree.removeDir, hl]
        rw [hw]
        have hsome : (lookupA ds n).isSome := by rw [hl]; rfl
        simp only [FSTree.isDir, FSTree.findDir?,
          lookupA_updateA_self ds n (sub.removeDir (r :: rs)) hsome]
        exact ih sub (List.cons_ne_nil r rs)

/-- `removeDir p` leaves the subtree at any path that neither contains nor is
contained in `p` untouched. -/
theorem findDir?_removeDir_indep {t : FSTree} {p x : Path}
    (h1 : ¬ p <+: x) (h2 : ¬ x <+: p) :
    (t.removeDir p).findDir? x = t.findDir? x := by
  induction p generalizing t x with
  | nil => exact absurd (List.nil_prefix) h1
  | cons n rest ih =>
    cases x with
    | nil => exact absurd (List.nil_prefix) h2
    | cons m xr =>
      obtain ⟨ds, fs⟩ := t
      cases rest with
      | nil =>
        have hm : m ≠ n := by
          intro he
          exact h1 (List.cons_prefix_cons.mpr ⟨he.symm, List.nil_prefix⟩)
        have hmn : m ≠ n := hm
        simp only [FSTree.removeDir, FSTree.findDir?, lookupA_removeA_ne ds n m hmn]
      | cons r rs =>
        cases hl : lookupA ds n with
        | none =>
          have hw : (FSTree.mk ds fs).removeDir (n :: r :: rs) = FSTree.mk ds fs := by
            simp only [FSTree.removeDir, hl]
          rw [hw]
        | some sub =>
          have hw : (FSTree.mk ds fs).removeDir (n :: r :: rs)
              = FSTree.mk (updateA ds n (sub.removeDir (r :: rs))) fs := by
            simp only [FSTree.removeDir, hl]
          rw [hw]
          by_cases hm : m = n
          · subst hm
            have h1' : ¬ (r :: rs) <+: xr :=
              fun hh => h1 (List.cons_prefix_cons.mpr ⟨rfl, hh⟩)
            have h2' : ¬ xr <+: (r :: rs) :=
              fun hh => h2 (List.cons_prefix_cons.mpr ⟨rfl, hh⟩)
            have hsome : (lookupA ds m).isSome := by rw [hl]; rfl
            simp only [FSTree.findDir?,
              lookupA_updateA_self ds m (sub.removeDir (r :: rs)) hsome, hl]
            exact ih h1' h2'
          · simp only [FSTree.findDir?,
              lookupA_updateA_ne ds n m (sub.removeDir (r :: rs)) hm]

/-- `removeDir p` changes no file outside the removed subtree, and no file at
`p` itself (only a directory is removed there). -/
theorem findFile?_removeDir_not_strict_below {t : FSTree} {p x : Path}
    (h : ¬ p <+: x ∨ x = p) : (t.removeDir p).findFile? x = t.findFile? x := by
  induction p generalizing t x with
  | nil =>
    rw [removeDir_nil]
  | cons n rest ih =>
    obtain ⟨ds, fs⟩ := t
    cases rest with
    | nil =>
      have hw : (FSTree.mk ds fs).removeDir [n] = FSTree.mk (removeA ds n) fs := rfl
      rw [hw]
      cases x with
      | nil => simp [findFile?_nil]
      | cons m xr =>
        cases xr with
        | nil => rw [findFile?_single, findFile?_single]
        | cons a b =>
          have hm : m ≠ n := by
            rcases h with h | h
            · intro he
              exact h (List.cons_prefix_cons.mpr ⟨he.symm, List.nil_prefix⟩)
            · simp at h
          rw [show (m :: a :: b) = [m] ++ (a :: b) from rfl,
            findFile?_append _ _ _ (List.cons_ne_nil a b),
            findFile?_append _ _ _ (List.cons_ne_nil a b)]
          simp only [FSTree.findDir?, lookupA_removeA_ne ds n m hm]
    | cons r rs =>
      cases hl : lookupA ds n with
      | none =>
        have hw : (FSTree.mk ds fs).removeDir (n :: r :: rs) = FSTree.mk ds fs := by
          simp only [FSTree.removeDir, hl]
        rw [hw]
      | some sub =>
        have hw : (FSTree.mk ds fs).removeDir (n :: r :: rs)
            = FSTree.mk (updateA ds n (sub.removeDir (r :: rs))) fs := by
          simp only [FSTree.removeDir, hl]
        rw [hw]
        cases x with
        | nil => simp [findFile?_nil]
        | cons m xr =>
          cases xr with
          | nil => rw [findFile?_single, findFile?_single]
          | cons a b =>
            rw [show (m :: a :: b) = [m] ++ (a :: b) from rfl,
              findFile?_append _ _ _ (List.cons_ne_nil a b),
              findFile?_append _ _ _ (List.cons_ne_nil a b)]
            by_cases hm : m = n
            · subst hm
              have h' : ¬ (r :: rs) <+: (a :: b) ∨ (a :: b) = (r :: rs) := by
                rcases h with h | h
                · exact Or.inl (fun hh => h (List.cons_prefix_cons.mpr ⟨rfl, hh⟩))
                · injection h with h1 h2
                  exact Or.inr h2
              have hsome : (lookupA ds m).isSome := by rw [hl]; rfl
              simp only [FSTree.findDir?,
                lookupA_updateA_self ds m (sub.removeDir (r :: rs)) hsome, hl,
                Option.some_bind]
              exact ih h'
            · simp only [FSTree.findDir?,
                lookupA_updateA_ne ds n m (sub.removeDir (r :: rs)) hm]

/-! ### Walk theory: the entry sequence of recursive_iglob -/

/-- Structural induction over the nested tree. -/
theorem FSTree.ind (P : FSTree → Prop)
    (h : ∀ ds fs, (∀ n sub, (n, sub) ∈ ds → P sub) → P (.mk ds fs)) :
    ∀ t, P t
  | .mk ds fs => h ds fs (fun n sub hm => FSTree.ind P h sub)
termination_by t => sizeOf t
decreasing_by
  have h1 : sizeOf (n, sub) < sizeOf ds := List.sizeOf_lt_of_mem hm
  have h2 : sizeOf sub < sizeOf (n, sub) := by simp
  simp only [FSTree.mk.sizeOf_spec]
  omega

theorem iglL_eq_flatten (base : Path) (ds : List (String × FSTree)) :
    iglL base ds = (ds.map (fun d => iglT (base ++ [d.1]) d.2)).flatten := by
  induction ds with
  | nil => rfl
  | cons d rest ih =>
    obtain ⟨n, sub⟩ := d
    simp [iglL, ih]

theorem iglT_node (base : Path) (ds : List (String × FSTree))
    (fs : List (String × String)) :
    iglT base (.mk ds fs)
      = ds.map (fun d => ('d', base ++ [d.1])) ++ fs.map (fun f => ('f', base ++ [f.1]))
        ++ (ds.map (fun d => iglT (base ++ [d.1]) d.2)).flatten := by
  rw [show iglT base (.mk ds fs)
      = ds.map (fun d => ('d', base ++ [d.1])) ++ fs.map (fun f => ('f', base ++ [f.1]))
        ++ iglL base ds from rfl, iglL_eq_flatten]

theorem wfL_iff (ds : List (String × FSTree)) :
    wfL ds = true ↔ ∀ n sub, (n, sub) ∈ ds → sub.wf = true := by
  induction ds with
  | nil => simp [wfL]
  | cons d rest ih =>
    obtain ⟨n, sub⟩ := d
    rw [wfL, Bool.and_eq_true, ih]
    constructor
    · rintro ⟨h1, h2⟩ m s hm
      rcases List.mem_cons.mp hm with he | hmem
      · obtain ⟨he1, he2⟩ := Prod.mk.injEq .. ▸ he.symm
        rw [← he2]
        exact h1
      · exact h2 m s hmem
    · intro h
      exact ⟨h n sub (by simp), fun m s hm => h m s (by simp [hm])⟩

theorem wf_node_iff (ds : List (String × FSTree)) (fs : List (String × String)) :
    FSTree.wf (.mk ds fs) = true ↔
      ((ds.map Prod.fst ++ fs.map Prod.fst).Nodup
        ∧ ∀ n sub, (n, sub) ∈ ds → sub.wf = true) := by
  rw [show FSTree.wf (.mk ds fs)
      = (nodupB (ds.map Prod.fst ++ fs.map Prod.fst) && wfL ds) from rfl,
    Bool.and_eq_true, nodupB_iff, wfL_iff]

/-- Every entry of the walk lies strictly below the walk's root. -/
theorem iglT_shape :
    ∀ t : FSTree, ∀ base : Path, ∀ e : Entry, e ∈ iglT base t →
      base <+: e.2 ∧ base.length < e.2.length := by
  refine FSTree.ind _ ?_
  intro ds fs ih base e he
  rw [iglT_node] at he
  rcases List.mem_append.mp he with he | he
  · rcases List.mem_append.mp he with he | he
    · obtain ⟨d, hd, rfl⟩ := List.mem_map.mp he
      constructor
      · exact ⟨[d.1], rfl⟩
      · simp
    · obtain ⟨f, hf, rfl⟩ := List.mem_map.mp he
      constructor
      · exact ⟨[f.1], rfl⟩
      · simp
  · rw [List.mem_flatten] at he
    obtain ⟨s, hs, hes⟩ := he
    rw [List.mem_map] at hs
    obtain ⟨d, hd, rfl⟩ := hs
    obtain ⟨h1, h2⟩ := ih d.1 d.2 (by obtain ⟨a, b⟩ := d; exact hd) (base ++ [d.1]) e hes
    constructor
    · exact (List.prefix_append base [d.1]).trans h1
    · have : base.length < (base ++ [d.1]).length := by simp
      omega

theorem lookupA_isSome_iff {κ α : Type} [DecidableEq κ] (l : List (κ × α)) (k : κ) :
    (lookupA l k).isSome = true ↔ k ∈ l.map Prod.fst := by
  cases hl : lookupA l k with
  | none =>
    simp only [Option.isSome_none, Bool.false_eq_true, false_iff]
    exact (lookupA_eq_none_iff l k).mp hl
  | some v =>
    simp only [Option.isSome_some, true_iff]
    exact List.mem_map_of_mem Prod.fst (lookupA_mem hl)

theorem findDir?_single_eq (ds : List (String × FSTree)) (fs : List (String × String))
    (n : String) : (FSTree.mk ds fs).findDir? [n] = lookupA ds n := by
  cases hl : lookupA ds n with
  | none => simp [FSTree.findDir?, hl]
  | some sub => simp [FSTree.findDir?, hl, findDir?_nil]

/-- An entry lies in the tree `t` mounted at `base`: it has the corresponding
kind tag and a directory (respectively file) exists at its path relative to
`base`. -/
def reachable (base : Path) (t : FSTree) (e : Entry) : Prop :=
  ∃ r, r ≠ [] ∧ e.2 = base ++ r ∧
    ((e.1 = 'd' ∧ (t.findDir? r).isSome = true)
      ∨ (e.1 = 'f' ∧ (t.findFile? r).isSome = true))

/-- Completeness and soundness of the walk on a well-formed tree: an entry is
yielded exactly when a directory or file exists at its path. -/
theorem mem_iglT_iff :
    ∀ t : FSTree, t.wf = true → ∀ base : Path, ∀ e : Entry,
      (e ∈ iglT base t ↔ reachable base t e) := by
  refine FSTree.ind _ ?_
  intro ds fs ih hwf base e
  obtain ⟨hnd, hch⟩ := (wf_node_iff ds fs).mp hwf
  obtain ⟨hndd, hndf, hdisj⟩ := List.nodup_append.mp hnd
  constructor
  · intro he
    rw [iglT_node] at he
    rcases List.mem_append.mp he with he | he
    · rcases List.mem_append.mp he with he | he
      · obtain ⟨d, hd, rfl⟩ := List.mem_map.mp he
        refine ⟨[d.1], by simp, rfl, Or.inl ⟨rfl, ?_⟩⟩
        rw [findDir?_single_eq, lookupA_isSome_iff]
        exact List.mem_map_of_mem Prod.fst hd
      · obtain ⟨f, hf, rfl⟩ := List.mem_map.mp he
        refine ⟨[f.1], by simp, rfl, Or.inr ⟨rfl, ?_⟩⟩
        rw [findFile?_single, lookupA_isSome_iff]
        exact List.mem_map_of_mem Prod.fst hf
    · rw [List.mem_flatten] at he
      obtain ⟨s, hs, hes⟩ := he
      rw [List.mem_map] at hs
      obtain ⟨⟨n, sub⟩, hd, rfl⟩ := hs
      obtain ⟨r', hr'ne, hpath, hkind⟩ := (ih n sub hd (hch n sub hd) (base ++ [n]) e).mp hes
      refine ⟨n :: r', by simp, by rw [hpath, List.append_assoc]; rfl, ?_⟩
      have hlk : lookupA ds n = some sub := lookupA_of_mem_nodup hndd hd
      rcases hkind with ⟨hk, hsome⟩ | ⟨hk, hsome⟩
      · refine Or.inl ⟨hk, ?_⟩
        simpa [FSTree.findDir?, hlk] using hsome
      · refine Or.inr ⟨hk, ?_⟩
        rw [show (n :: r') = [n] ++ r' from rfl,
          findFile?_append _ _ _ hr'ne, findDir?_single_eq, hlk]
        simpa using hsome
  · rintro ⟨r, hrne, hpath, hkind⟩
    rw [iglT_node]
    obtain ⟨n, r', rfl⟩ : ∃ n r', r = n :: r' := by
      cases r with
      | nil => exact absurd rfl hrne
      | cons a b => exact ⟨a, b, rfl⟩
    by_cases hr' : r' = []
    · subst hr'
      rcases hkind with ⟨hk, hsome⟩ | ⟨hk, hsome⟩
      · rw [findDir?_single_eq, lookupA_isSome_iff, List.mem_map] at hsome
        obtain ⟨d, hd, hdn⟩ := hsome
        refine List.mem_append.mpr (Or.inl (List.mem_append.mpr (Or.inl ?_)))
        rw [List.mem_map]
        refine ⟨d, hd, ?_⟩
        rw [hdn]
        obtain ⟨e1, e2⟩ := e
        simp only at hk hpath
        rw [hk, hpath]
      · rw [findFile?_single, lookupA_isSome_iff, List.mem_map] at hsome
        obtain ⟨f, hf, hfn⟩ := hsome
        refine List.mem_append.mpr (Or.inl (List.mem_append.mpr (Or.inr ?_)))
        rw [List.mem_map]
        refine ⟨f, hf, ?_⟩
        rw [hfn]
        obtain ⟨e1, e2⟩ := e
        simp only at hk hpath
        rw [hk, hpath]
    · have hr'ne : r' ≠ [] := hr'
      have hsub : ∃ sub, lookupA ds n = some sub ∧
          ((e.1 = 'd' ∧ (sub.findDir? r').isSome = true)
            ∨ (e.1 = 'f' ∧ (sub.findFile? r').isSome = true)) := by
        rcases hkind with ⟨hk, hsome⟩ | ⟨hk, hsome⟩
        · cases hlk : lookupA ds n with
          | none => rw [show (FSTree.mk ds fs).findDir? (n :: r')
                = none from by simp [FSTree.findDir?, hlk]] at hsome; simp at hsome
          | some sub =>
            refine ⟨sub, rfl, Or.inl ⟨hk, ?_⟩⟩
            simpa [FSTree.findDir?, hlk] using hsome
        · rw [show (n :: r') = [n] ++ r' from rfl,
            findFile?_append _ _ _ hr'ne, findDir?_single_eq] at hsome
          cases hlk : lookupA ds n with
          | none => rw [hlk] at hsome; simp at hsome
          | some sub =>
            rw [hlk] at hsome
            exact ⟨sub, rfl, Or.inr ⟨hk, by simpa using hsome⟩⟩
      obtain ⟨sub, hlk, hkind'⟩ := hsub
      have hd : (n, sub) ∈ ds := lookupA_mem hlk
      refine List.mem_append.mpr (Or.inr ?_)
      rw [List.mem_flatten]
      refine ⟨iglT (base ++ [n]) sub, List.mem_map_of_mem _ hd, ?_⟩
      rw [ih n sub hd (hch n sub hd) (base ++ [n]) e]
      exact ⟨r', hr'ne, by rw [hpath, List.append_assoc]; rfl, hkind'⟩

theorem pair_sublist_append {α : Type} {a b : α} {l1 l2 : List α}
    (h1 : a ∈ l1) (h2 : b ∈ l2) : List.Sublist [a, b] (l1 ++ l2) := by
  have s1 : List.Sublist [a] l1 := List.singleton_sublist.mpr h1
  have s2 : List.Sublist [b] l2 := List.singleton_sublist.mpr h2
  exact List.Sublist.append s1 s2

/-- Unfold membership in the recursive part of a node's walk. -/
theorem mem_walk_flatten {ds : List (String × FSTree)} {base : Path} {e : Entry}
    (h : e ∈ (ds.map (fun d => iglT (base ++ [d.1]) d.2)).flatten) :
    ∃ n sub, (n, sub) ∈ ds ∧ e ∈ iglT (base ++ [n]) sub := by
  rw [List.mem_flatten] at h
  obtain ⟨s, hs, hes⟩ := h
  rw [List.mem_map] at hs
  obtain ⟨⟨n, sub⟩, hd, rfl⟩ := hs
  exact ⟨n, sub, hd, hes⟩

theorem mem_walk_flatten_of {ds : List (String × FSTree)} {base : Path} {e : Entry}
    {n : String} {sub : FSTree} (hd : (n, sub) ∈ ds) (he : e ∈ iglT (base ++ [n]) sub) :
    e ∈ (ds.map (fun d => iglT (base ++ [d.1]) d.2)).flatten := by
  rw [List.mem_flatten]
  exact ⟨iglT (base ++ [n]) sub, List.mem_map_of_mem _ hd, he⟩

/-- With duplicate-free names, one name determines the subtree. -/
theorem mem_unique_of_nodup_keys {ds : List (String × FSTree)}
    (hnd : (ds.map Prod.fst).Nodup) {n : String} {s1 s2 : FSTree}
    (h1 : (n, s1) ∈ ds) (h2 : (n, s2) ∈ ds) : s1 = s2 := by
  have e1 := lookupA_of_mem_nodup hnd h1
  have e2 := lookupA_of_mem_nodup hnd h2
  exact Option.some.inj (e1.symm.trans e2)

/-- Two sibling mount points are prefix-incompatible. -/
theorem sibling_not_ancestor {base : Path} {n m : String} (hnm : n ≠ m) {p : Path}
    (h1 : (base ++ [n]) <+: p) (h2 : (base ++ [m]) <+: p) : False := by
  have hlen : (base ++ [n]).length = (base ++ [m]).length := by simp
  have hpre := List.prefix_of_prefix_length_le h1 h2 (le_of_eq hlen)
  have heq := List.IsPrefix.eq_of_length hpre hlen
  have h3 : n = m := by simpa using List.append_cancel_left heq
  exact hnm h3

/-- The flattened recursive walks of duplicate-free siblings are
duplicate-free when each sibling's walk is. -/
theorem walks_flatten_nodup (base : Path) :
    ∀ ds : List (String × FSTree),
      (ds.map Prod.fst).Nodup →
      (∀ n sub, (n, sub) ∈ ds → (iglT (base ++ [n]) sub).Nodup) →
      ((ds.map (fun d => iglT (base ++ [d.1]) d.2)).flatten).Nodup := by
  intro ds
  induction ds with
  | nil => simp
  | cons d rest ihds =>
    obtain ⟨n, sub⟩ := d
    intro hnd hnodup
    simp only [List.map_cons, List.flatten_cons]
    rw [List.nodup_append]
    refine ⟨hnodup n sub (by simp), ?_, ?_⟩
    · refine ihds ?_ ?_
      · simpa using hnd.of_cons
      · exact fun m s hm => hnodup m s (by simp [hm])
    · intro e he1 he2
      obtain ⟨m, s, hm, hes⟩ := mem_walk_flatten he2
      have hp1 := (iglT_shape sub (base ++ [n]) e he1).1
      have hp2 := (iglT_shape s (base ++ [m]) e hes).1
      have hnm : n ≠ m := by
        intro he
        subst he
        rw [List.map_cons, List.nodup_cons] at hnd
        have hmem : n ∈ List.map Prod.fst rest := List.mem_map.mpr ⟨(n, s), hm, rfl⟩
        exact hnd.1 hmem
      exact sibling_not_ancestor hnm hp1 hp2

/-- The walk of a well-formed tree yields no entry twice. -/
theorem iglT_nodup : ∀ t : FSTree, t.wf = true → ∀ base : Path, (iglT base t).Nodup := by
  refine FSTree.ind _ ?_
  intro ds fs ih hwf base
  obtain ⟨hnd, hch⟩ := (wf_node_iff ds fs).mp hwf
  obtain ⟨hndd, hndf, hdisjk⟩ := List.nodup_append.mp hnd
  rw [iglT_node]
  rw [List.nodup_append]
  refine ⟨?_, ?_, ?_⟩
  · rw [List.nodup_append]
    refine ⟨?_, ?_, ?_⟩
    · rw [show (fun d : String × FSTree => (('d', base ++ [d.1]) : Entry))
          = (fun n : String => (('d', base ++ [n]) : Entry)) ∘ Prod.fst from rfl,
        ← List.map_map]
      refine hndd.map ?_
      intro a b hab
      simp only [Prod.mk.injEq, true_and] at hab
      simpa using List.append_cancel_left hab
    · rw [show (fun f : String × String => (('f', base ++ [f.1]) : Entry))
          = (fun n : String => (('f', base ++ [n]) : Entry)) ∘ Prod.fst from rfl,
        ← List.map_map]
      refine hndf.map ?_
      intro a b hab
      simp only [Prod.mk.injEq, true_and] at hab
      simpa using List.append_cancel_left hab
    · intro e he1 he2
      obtain ⟨d, hd, rfl⟩ := List.mem_map.mp he1
      obtain ⟨f, hf, hef⟩ := List.mem_map.mp he2
      exact absurd (congrArg Prod.fst hef.symm) (by simp)
  · exact walks_flatten_nodup base ds hndd
      (fun n sub hm => ih n sub hm (hch n sub hm) (base ++ [n]))
  · intro e he1 he2
    obtain ⟨m, s, hm, hes⟩ := mem_walk_flatten he2
    have hlen2 := (iglT_shape s (base ++ [m]) e hes).2
    rcases List.mem_append.mp he1 with he | he
    · obtain ⟨d, hd, rfl⟩ := List.mem_map.mp he
      simp at hlen2
    · obtain ⟨f, hf, rfl⟩ := List.mem_map.mp he
      simp at hlen2

/-- `q` is an immediate child path of `p`. -/
def IsChildPath (p q : Path) : Prop := ∃ n, q = p ++ [n]

theorem IsChildPath.length {p q : Path} (h : IsChildPath p q) :
    q.length = p.length + 1 := by
  obtain ⟨n, rfl⟩ := h
  simp

theorem IsChildPath.isPre {p q : Path} (h : IsChildPath p q) : p <+: q := by
  obtain ⟨n, rfl⟩ := h
  exact List.prefix_append p [n]

/-- An entry strictly more than one level below the node root lies in the
recursive section of the walk, inside the child walk determined by its path. -/
theorem locate_deep_entry {ds : List (String × FSTree)} {fs : List (String × String)}
    {base : Path} {e : Entry} (he : e ∈ iglT base (.mk ds fs))
    (hdeep : base.length + 1 < e.2.length) :
    ∃ n sub, (n, sub) ∈ ds ∧ e ∈ iglT (base ++ [n]) sub ∧ (base ++ [n]) <+: e.2 := by
  rw [iglT_node] at he
  rcases List.mem_append.mp he with he | he
  · rcases List.mem_append.mp he with he | he
    · obtain ⟨d, hd, rfl⟩ := List.mem_map.mp he
      simp at hdeep
    · obtain ⟨f, hf, rfl⟩ := List.mem_map.mp he
      simp at hdeep
  · obtain ⟨n, sub, hd, hes⟩ := mem_walk_flatten he
    exact ⟨n, sub, hd, hes, (iglT_shape sub (base ++ [n]) e hes).1⟩

/-- Under duplicate-free names, two entries below sibling mount points that
share a path below one point lie in the same child. -/
theorem same_child_of_common {ds : List (String × FSTree)}
    (hndd : (ds.map Prod.fst).Nodup) {base : Path} {n n' : String} {sub sub' : FSTree}
    (h1 : (n, sub) ∈ ds) (h2 : (n', sub') ∈ ds) {q : Path}
    (hp1 : (base ++ [n]) <+: q) (hp2 : (base ++ [n']) <+: q) : n = n' ∧ sub = sub' := by
  by_cases hnm : n = n'
  · subst hnm
    exact ⟨rfl, mem_unique_of_nodup_keys hndd h1 h2⟩
  · exact absurd (sibling_not_ancestor hnm hp1 hp2) (by simp)

/-- A sublist of one child walk is a sublist of the whole walk. -/
theorem sublist_iglT_of_sublist_child {ds : List (String × FSTree)}
    {fs : List (String × String)} {base : Path} {n : String} {sub : FSTree}
    (hd : (n, sub) ∈ ds) {l : List Entry}
    (h : List.Sublist l (iglT (base ++ [n]) sub)) :
    List.Sublist l (iglT base (.mk ds fs)) := by
  rw [iglT_node]
  refine (h.trans (List.sublist_flatten_of_mem ?_)).trans
    (List.sublist_append_right _ _)
  exact List.mem_map_of_mem _ hd

/-- In the walk of a well-formed tree, at each directory (the root or any
yielded directory) every immediate subdirectory entry is yielded before every
immediate file entry of that directory. -/
theorem iglT_dirs_before_files :
    ∀ t : FSTree, t.wf = true → ∀ base p : Path,
      (p = base ∨ ('d', p) ∈ iglT base t) →
      ∀ ed ef : Entry, ed ∈ iglT base t → ef ∈ iglT base t →
        IsChildPath p ed.2 → IsChildPath p ef.2 → ed.1 = 'd' → ef.1 = 'f' →
        List.Sublist [ed, ef] (iglT base t) := by
  refine FSTree.ind _ ?_
  intro ds fs ih hwf base p hp ed ef hed hef hcd hcf hkd hkf
  obtain ⟨hnd, hch⟩ := (wf_node_iff ds fs).mp hwf
  obtain ⟨hndd, hndf, hdisjk⟩ := List.nodup_append.mp hnd
  have hwfnode : FSTree.wf (.mk ds fs) = true := hwf
  rcases hp with rfl | hpmem
  · -- children of the node root live in the two front batches
    have hedA : ed ∈ ds.map (fun d => (('d', p ++ [d.1]) : Entry)) := by
      rw [iglT_node] at hed
      rcases List.mem_append.mp hed with he | he
      · rcases List.mem_append.mp he with he | he
        · exact he
        · obtain ⟨f, hf, rfl⟩ := List.mem_map.mp he
          simp at hkd
      · obtain ⟨n, sub, hd, hes⟩ := mem_walk_flatten he
        have := (iglT_shape sub (p ++ [n]) ed hes).2
        have := hcd.length
        simp at *
        omega
    have hefB : ef ∈ fs.map (fun f => (('f', p ++ [f.1]) : Entry)) := by
      rw [iglT_node] at hef
      rcases List.mem_append.mp hef with he | he
      · rcases List.mem_append.mp he with he | he
        · obtain ⟨d, hd, rfl⟩ := List.mem_map.mp he
          simp at hkf
        · exact he
      · obtain ⟨n, sub, hd, hes⟩ := mem_walk_flatten he
        have := (iglT_shape sub (p ++ [n]) ef hes).2
        have := hcf.length
        simp at *
        omega
    rw [iglT_node]
    exact (pair_sublist_append hedA hefB).trans (List.sublist_append_left _ _)
  · -- p is itself a yielded directory: both children lie in one child walk
    rw [iglT_node] at hpmem
    have main : ∃ n sub, (n, sub) ∈ ds ∧ (base ++ [n]) <+: p ∧
        (p = base ++ [n] ∨ ('d', p) ∈ iglT (base ++ [n]) sub) := by
      rcases List.mem_append.mp hpmem with he | he
      · rcases List.mem_append.mp he with he | he
        · obtain ⟨d, hd, hde⟩ := List.mem_map.mp he
          obtain ⟨n, sub⟩ := d
          have hpe : p = base ++ [n] := (congrArg Prod.snd hde).symm
          exact ⟨n, sub, hd, hpe ▸ List.prefix_refl _, Or.inl hpe⟩
        · obtain ⟨f, hf, hfe⟩ := List.mem_map.mp he
          exact absurd (congrArg Prod.fst hfe.symm) (by simp)
      · obtain ⟨n, sub, hd, hes⟩ := mem_walk_flatten he
        exact ⟨n, sub, hd, (iglT_shape sub (base ++ [n]) _ hes).1, Or.inr hes⟩
    obtain ⟨n, sub, hd, hpre, hp'⟩ := main
    have hplen2 : base.length + 1 ≤ p.length := by
      have := hpre.length_le
      simpa using this
    have hed' : ed ∈ iglT (base ++ [n]) sub := by
      have hdeep : base.length + 1 < ed.2.length := by
        rw [hcd.length]
        omega
      obtain ⟨n', sub', hd', hes', hpre'⟩ := locate_deep_entry hed hdeep
      have hpree : (base ++ [n]) <+: ed.2 := hpre.trans hcd.isPre
      obtain ⟨heq1, heq2⟩ := same_child_of_common hndd hd' hd hpre' hpree
      rw [heq1, heq2] at hes'
      exact hes'
    have hef' : ef ∈ iglT (base ++ [n]) sub := by
      have hdeep : base.length + 1 < ef.2.length := by
        rw [hcf.length]
        omega
      obtain ⟨n', sub', hd', hes', hpre'⟩ := locate_deep_entry hef hdeep
      have hpree : (base ++ [n]) <+: ef.2 := hpre.trans hcf.isPre
      obtain ⟨heq1, heq2⟩ := same_child_of_common hndd hd' hd hpre' hpree
      rw [heq1, heq2] at hes'
      exact hes'
    have hsub := ih n sub hd (hch n sub hd) (base ++ [n]) p hp' ed ef hed' hef' hcd hcf hkd hkf
    exact sublist_iglT_of_sublist_child hd hsub

/-- In the walk of a well-formed tree, at each directory (the root or any
yielded directory) every immediate child entry is yielded before every entry
lying two or more levels below that directory: the whole level is yielded
before the traversal descends. -/
theorem iglT_level_before_deeper :
    ∀ t : FSTree, t.wf = true → ∀ base p : Path,
      (p = base ∨ ('d', p) ∈ iglT base t) →
      ∀ ec ex : Entry, ec ∈ iglT base t → ex ∈ iglT base t →
        IsChildPath p ec.2 → p <+: ex.2 → p.length + 2 ≤ ex.2.length →
        List.Sublist [ec, ex] (iglT base t) := by
  refine FSTree.ind _ ?_
  intro ds fs ih hwf base p hp ec ex hec hex hcc hpx hlx
  obtain ⟨hnd, hch⟩ := (wf_node_iff ds fs).mp hwf
  obtain ⟨hndd, hndf, hdisjk⟩ := List.nodup_append.mp hnd
  rcases hp with rfl | hpmem
  · have hecAB : ec ∈ ds.map (fun d => (('d', p ++ [d.1]) : Entry))
        ++ fs.map (fun f => (('f', p ++ [f.1]) : Entry)) := by
      rw [iglT_node] at hec
      rcases List.mem_append.mp hec with he | he
      · exact he
      · obtain ⟨n, sub, hd, hes⟩ := mem_walk_flatten he
        have := (iglT_shape sub (p ++ [n]) ec hes).2
        have := hcc.length
        simp at *
        omega
    have hexC : ex ∈ (ds.map (fun d => iglT (p ++ [d.1]) d.2)).flatten := by
      rw [iglT_node] at hex
      rcases List.mem_append.mp hex with he | he
      · rcases List.mem_append.mp he with he | he
        · obtain ⟨d, hd, rfl⟩ := List.mem_map.mp he
          simp at hlx
        · obtain ⟨f, hf, rfl⟩ := List.mem_map.mp he
          simp at hlx
      · exact he
    rw [iglT_node]
    exact pair_sublist_append hecAB hexC
  · rw [iglT_node] at hpmem
    have main : ∃ n sub, (n, sub) ∈ ds ∧ (base ++ [n]) <+: p ∧
        (p = base ++ [n] ∨ ('d', p) ∈ iglT (base ++ [n]) sub) := by
      rcases List.mem_append.mp hpmem with he | he
      · rcases List.mem_append.mp he with he | he
        · obtain ⟨d, hd, hde⟩ := List.mem_map.mp he
          obtain ⟨n, sub⟩ := d
          have hpe : p = base ++ [n] := (congrArg Prod.snd hde).symm
          exact ⟨n, sub, hd, hpe ▸ List.prefix_refl _, Or.inl hpe⟩
        · obtain ⟨f, hf, hfe⟩ := List.mem_map.mp he
          exact absurd (congrArg Prod.fst hfe.symm) (by simp)
      · obtain ⟨n, sub, hd, hes⟩ := mem_walk_flatten he
        exact ⟨n, sub, hd, (iglT_shape sub (base ++ [n]) _ hes).1, Or.inr hes⟩
    obtain ⟨n, sub, hd, hpre, hp'⟩ := main
    have hplen2 : base.length + 1 ≤ p.length := by
      have := hpre.length_le
      simpa using this
    have hec' : ec ∈ iglT (base ++ [n]) sub := by
      have hdeep : base.length + 1 < ec.2.length := by
        rw [hcc.length]
        omega
      obtain ⟨n', sub', hd', hes', hpre'⟩ := locate_deep_entry hec hdeep
      have hpree : (base ++ [n]) <+: ec.2 := hpre.trans hcc.isPre
      obtain ⟨heq1, heq2⟩ := same_child_of_common hndd hd' hd hpre' hpree
      rw [heq1, heq2] at hes'
      exact hes'
    have hex' : ex ∈ iglT (base ++ [n]) sub := by
      have hdeep : base.length + 1 < ex.2.length := by omega
      obtain ⟨n', sub', hd', hes', hpre'⟩ := locate_deep_entry hex hdeep
      have hpree : (base ++ [n]) <+: ex.2 := hpre.trans hpx
      obtain ⟨heq1, heq2⟩ := same_child_of_common hndd hd' hd hpre' hpree
      rw [heq1, heq2] at hes'
      exact hes'
    have hsub := ih n sub hd (hch n sub hd) (base ++ [n]) p hp' ec ex hec' hex' hcc hpx hlx
    exact sublist_iglT_of_sublist_child hd hsub

/-- In the walk of a well-formed tree, the parent directory of every yielded
entry is either the walk root or is itself yielded, earlier. -/
theorem iglT_parent_before :
    ∀ t : FSTree, t.wf = true → ∀ base : Path, ∀ e : Entry, e ∈ iglT base t →
      e.2.dropLast = base ∨
        List.Sublist [('d', e.2.dropLast), e] (iglT base t) := by
  refine FSTree.ind _ ?_
  intro ds fs ih hwf base e he
  obtain ⟨hnd, hch⟩ := (wf_node_iff ds fs).mp hwf
  rw [iglT_node] at he
  rcases List.mem_append.mp he with he | he
  · rcases List.mem_append.mp he with he | he
    · obtain ⟨d, hd, rfl⟩ := List.mem_map.mp he
      exact Or.inl (by simp)
    · obtain ⟨f, hf, rfl⟩ := List.mem_map.mp he
      exact Or.inl (by simp)
  · obtain ⟨n, sub, hd, hes⟩ := mem_walk_flatten he
    rcases ih n sub hd (hch n sub hd) (base ++ [n]) e hes with hpar | hpar
    · refine Or.inr ?_
      rw [iglT_node, hpar]
      refine pair_sublist_append ?_ (mem_walk_flatten_of hd hes)
      refine List.mem_append.mpr (Or.inl ?_)
      exact List.mem_map.mpr ⟨(n, sub), hd, rfl⟩
    · exact Or.inr (sublist_iglT_of_sublist_child hd hpar)

/-! ### The copy loop as a record formula and a filesystem fold -/

theorem copyStep_skip {src dst : Path} {exclude : List Path} {e : Entry}
    (h : relpath e.2 src ∈ exclude) (acc : FSTree × List Entry) :
    copyStep src dst exclude acc e = acc := by
  simp [copyStep, h]

theorem copyStep_keep {src dst : Path} {exclude : List Path} {e : Entry}
    (h : relpath e.2 src ∉ exclude) (acc : FSTree × List Entry) :
    copyStep src dst exclude acc e
      = (fsStep src dst exclude acc.1 e, acc.2 ++ [retarget src dst e]) := by
  obtain ⟨g, r⟩ := acc
  by_cases hk : e.1 = 'd'
  · simp [copyStep, fsStep, retarget, h, hk]
  · simp [copyStep, fsStep, retarget, h, hk]

theorem fsStep_skip {src dst : Path} {exclude : List Path} {e : Entry}
    (h : relpath e.2 src ∈ exclude) (g : FSTree) :
    fsStep src dst exclude g e = g := by
  simp [fsStep, copyStep, h]

/-- The copy loop splits into a filesystem fold and the record of the kept
entries' targets, in visitation order. -/
theorem foldl_copyStep_eq (src dst : Path) (exclude : List Path) :
    ∀ (l : List Entry) (g : FSTree) (r : List Entry),
      l.foldl (copyStep src dst exclude) (g, r)
        = (l.foldl (fsStep src dst exclude) g,
            r ++ (l.filter (keptB src exclude)).map (retarget src dst)) := by
  intro l
  induction l with
  | nil => intro g r; simp
  | cons e rest ih =>
    intro g r
    rw [List.foldl_cons, List.foldl_cons]
    by_cases h : relpath e.2 src ∈ exclude
    · rw [copyStep_skip h, ih]
      have hk : keptB src exclude e = false := by simp [keptB, h]
      have hs : fsStep src dst exclude g e = g := fsStep_skip h g
      rw [List.filter_cons_of_neg (by rw [hk]; simp), hs]
    · rw [copyStep_keep h, ih]
      have hk : keptB src exclude e = true := by simp [keptB, h]
      rw [List.filter_cons_of_pos (by rw [hk])]
      simp

/-- The result of `copy_tree` on an existing source. -/
theorem copy_tree_eq {fs : FSTree} {src : Path} {t : FSTree}
    (dst : Path) (exclude : List Path) (h : fs.findDir? src = some t) :
    copy_tree fs src dst exclude
      = some (((iglT src t).filter (keptB src exclude)).map (retarget src dst),
          (iglT src t).foldl (fsStep src dst exclude) fs) := by
  simp [copy_tree, h, foldl_copyStep_eq]

/-! ### Path separation -/

theorem prefix_total_of_common {l1 l2 L : List String} (h1 : l1 <+: L) (h2 : l2 <+: L) :
    l1 <+: l2 ∨ l2 <+: l1 := by
  rcases le_total l1.length l2.length with hle | hle
  · exact Or.inl (List.prefix_of_prefix_length_le h1 h2 hle)
  · exact Or.inr (List.prefix_of_prefix_length_le h2 h1 hle)

/-- When neither of two paths is a prefix of the other, no extension of one is
a prefix of any extension of the other. -/
theorem sep_extend {a b : Path} (h1 : ¬ a <+: b) (h2 : ¬ b <+: a) (x y : Path) :
    ¬ (a ++ x) <+: (b ++ y) := by
  intro hpre
  have ha : a <+: b ++ y := (List.prefix_append a x).trans hpre
  have hb : b <+: b ++ y := List.prefix_append b y
  rcases prefix_total_of_common ha hb with h | h
  · exact h1 h
  · exact h2 h

/-- A single copy-loop step writes only inside the destination region: every
lookup at a path prefix-incompatible with `dst` is unchanged. -/
theorem fsStep_pres {src dst : Path} {exclude : List Path} {e : Entry}
    (hrel : relpath e.2 src ≠ []) {x : Path}
    (hx1 : ¬ dst <+: x) (hx2 : ¬ x <+: dst) (g : FSTree) :
    (fsStep src dst exclude g e).findDir? x = g.findDir? x
      ∧ (fsStep src dst exclude g e).findFile? x = g.findFile? x := by
  by_cases h : relpath e.2 src ∈ exclude
  · rw [fsStep_skip h]
    exact ⟨rfl, rfl⟩
  · have hindep : ∀ sp : Path, ¬ (dst ++ sp) <+: x ∧ ¬ x <+: (dst ++ sp) := by
      intro sp
      constructor
      · intro hh
        exact hx1 ((List.prefix_append dst sp).trans hh)
      · intro hh
        rcases prefix_total_of_common hh (List.prefix_append dst sp) with h2 | h2
        · exact hx2 h2
        · exact hx1 h2
    by_cases hk : e.1 = 'd'
    · have hstep : fsStep src dst exclude g e = g.mkdirs (dst ++ relpath e.2 src) := by
        simp [fsStep, copyStep, h, hk]
      rw [hstep]
      exact ⟨findDir?_mkdirs_indep (hindep _).1 (hindep _).2, findFile?_mkdirs _ _ _⟩
    · have hstep : fsStep src dst exclude g e
          = (g.mkdirs (dst ++ relpath e.2 src).dropLast).writeFile
              (dst ++ relpath e.2 src) ((g.findFile? e.2).getD "") := by
        simp [fsStep, copyStep, h, hk]
      have hdrop : (dst ++ relpath e.2 src).dropLast = dst ++ (relpath e.2 src).dropLast :=
        List.dropLast_append_of_ne_nil _ hrel
      rw [hstep, hdrop]
      constructor
      · rw [findDir?_writeFile_not_above _ (hindep _).2,
          findDir?_mkdirs_indep (hindep _).1 (hindep _).2]
      · have hne : x ≠ dst ++ relpath e.2 src := by
          intro he
          exact hx1 (he ▸ List.prefix_append dst _)
        rw [findFile?_writeFile_ne _ hne, findFile?_mkdirs]

/-- The whole copy fold leaves every path prefix-incompatible with `dst`
unchanged. -/
theorem foldl_fsStep_pres (src dst : Path) (exclude : List Path) :
    ∀ (l : List Entry) (g : FSTree) (x : Path),
      (∀ e ∈ l, relpath e.2 src ≠ []) →
      (¬ dst <+: x) → (¬ x <+: dst) →
      ((l.foldl (fsStep src dst exclude) g).findDir? x = g.findDir? x
        ∧ (l.foldl (fsStep src dst exclude) g).findFile? x = g.findFile? x) := by
  intro l
  induction l with
  | nil => intro g x _ _ _; exact ⟨rfl, rfl⟩
  | cons e rest ih =>
    intro g x hrel hx1 hx2
    rw [List.foldl_cons]
    have hstep := @fsStep_pres src dst exclude e (hrel e (by simp)) x hx1 hx2 g
    have hrest := ih (fsStep src dst exclude g e) x
      (fun e' he' => hrel e' (by simp [he'])) hx1 hx2
    exact ⟨hrest.1.trans hstep.1, hrest.2.trans hstep.2⟩

theorem relpath_append (src r : Path) : relpath (src ++ r) src = r := by
  simp [relpath, List.drop_left]

theorem eq_append_relpath {src p : Path} (h : src <+: p) :
    p = src ++ relpath p src := by
  obtain ⟨r, rfl⟩ := h
  rw [relpath_append]

theorem relpath_ne_nil {src p : Path} (h : src.length < p.length) :
    relpath p src ≠ [] := by
  intro hh
  have := congrArg List.length hh
  rw [relpath, List.length_drop] at this
  simp at this
  omega

/-! ### Claim C2: the traversal contract of recursive_iglob -/

/-- C2: for every finite, acyclic directory tree rooted at an existing
directory, `recursive_iglob` yields every directory and file reachable from
the root exactly once (the sequence is duplicate-free and an entry is yielded
exactly when it exists in the tree), in breadth-first order: at each directory
level all of that directory's immediate subdirectories are yielded, then all
of its immediate files, before the traversal descends into any subdirectory
(every immediate child entry of a directory precedes every entry two or more
levels below it); and each entry's parent path appears earlier in the sequence
than the entry itself (or is the root).  The tree is well-formed: names inside
one directory are distinct, as on a real filesystem. -/
theorem claim_C2_recursive_iglob_traversal
    (fs : FSTree) (root_dir : Path) (t : FSTree)
    (hroot : fs.findDir? root_dir = some t) (hwf : t.wf = true) :
    ∃ l, recursive_iglob fs root_dir = some l ∧
      l.Nodup ∧
      (∀ e, e ∈ l ↔ reachable root_dir t e) ∧
      (∀ p, (p = root_dir ∨ ('d', p) ∈ l) →
        (∀ ed ef, ed ∈ l → ef ∈ l → IsChildPath p ed.2 → IsChildPath p ef.2 →
          ed.1 = 'd' → ef.1 = 'f' → List.Sublist [ed, ef] l) ∧
        (∀ ec ex, ec ∈ l → ex ∈ l → IsChildPath p ec.2 → p <+: ex.2 →
          p.length + 2 ≤ ex.2.length → List.Sublist [ec, ex] l)) ∧
      (∀ e, e ∈ l → e.2.dropLast = root_dir ∨
        List.Sublist [('d', e.2.dropLast), e] l) := by
  refine ⟨iglT root_dir t, by simp [recursive_iglob, hroot], iglT_nodup t hwf root_dir,
    fun e => mem_iglT_iff t hwf root_dir e, fun p hp => ⟨?_, ?_⟩, ?_⟩
  · intro ed ef h1 h2 h3 h4 h5 h6
    exact iglT_dirs_before_files t hwf root_dir p hp ed ef h1 h2 h3 h4 h5 h6
  · intro ec ex h1 h2 h3 h4 h5
    exact iglT_level_before_deeper t hwf root_dir p hp ec ex h1 h2 h3 h4 h5
  · intro e he
    exact iglT_parent_before t hwf root_dir e he

/-- Witness for C2 at a concrete three-level tree. -/
theorem claim_C2_witness :
    (fxRoot.findDir? ["r"] = some fxTree ∧ fxTree.wf = true)
    ∧ (∃ l, recursive_iglob fxRoot ["r"] = some l ∧
        l.Nodup ∧
        (∀ e, e ∈ l ↔ reachable ["r"] fxTree e) ∧
        (∀ p, (p = ["r"] ∨ ('d', p) ∈ l) →
          (∀ ed ef, ed ∈ l → ef ∈ l → IsChildPath p ed.2 → IsChildPath p ef.2 →
            ed.1 = 'd' → ef.1 = 'f' → List.Sublist [ed, ef] l) ∧
          (∀ ec ex, ec ∈ l → ex ∈ l → IsChildPath p ec.2 → p <+: ex.2 →
            p.length + 2 ≤ ex.2.length → List.Sublist [ec, ex] l)) ∧
        (∀ e, e ∈ l → e.2.dropLast = ["r"] ∨
          List.Sublist [('d', e.2.dropLast), e] l)) :=
  ⟨⟨rfl, rfl⟩, claim_C2_recursive_iglob_traversal fxRoot ["r"] fxTree rfl rfl⟩

/-! ### Claim C7: deletion tolerates only a vanished path -/

/-- C7: tree deletion with the vanished-path filter never fails when the tree
does not exist, nor when the same tree is deleted twice in sequence (the
second deletion sees a vanished path), while the filter propagates every error
other than a missing path.  The path carries no file (on a real filesystem a
directory path is not also a file path). -/
theorem claim_C7_rmtree_ignore_missing
    : (∀ (fs : FSTree) (p : Path), fs.isDir p = false → fs.findFile? p = none →
        rmtree_onerror fs p = .ok fs)
      ∧ (∀ (fs : FSTree) (p : Path), fs.isDir p = true → p ≠ [] →
          fs.findFile? p = none →
          rmtree_onerror fs p = .ok (fs.removeDir p)
            ∧ rmtree_onerror (fs.removeDir p) p = .ok (fs.removeDir p))
      ∧ ignore_missing_dir_error .fileNotFound = .ok ()
      ∧ (∀ e : PyErr, e ≠ .fileNotFound → ignore_missing_dir_error e = .error e) := by
  have base : ∀ (fs : FSTree) (p : Path), fs.isDir p = false → fs.findFile? p = none →
      rmtree_onerror fs p = .ok fs := by
    intro fs p h1 h2
    simp [rmtree_onerror, h1, h2, ignore_missing_dir_error]
  refine ⟨base, ?_, rfl, ?_⟩
  · intro fs p h1 hp h2
    have hdel : rmtree_onerror fs p = .ok (fs.removeDir p) := by
      simp [rmtree_onerror, h1]
    refine ⟨hdel, base _ _ (isDir_removeDir_self fs hp) ?_⟩
    rw [findFile?_removeDir_not_strict_below (Or.inr rfl)]
    exact h2
  · intro e he
    cases e with
    | fileNotFound => exact absurd rfl he
    | notADirectory => rfl
    | permissionDenied => rfl

/-- Witness for C7: deleting a missing tree, and deleting the same existing
tree twice, at concrete inputs; the filter re-raises a permission error. -/
theorem claim_C7_witness :
    (fxSmall.isDir ["q"] = false ∧ fxSmall.findFile? ["q"] = none
      ∧ rmtree_onerror fxSmall ["q"] = .ok fxSmall)
    ∧ (fxSmall.isDir ["a"] = true ∧ (["a"] : Path) ≠ [] ∧ fxSmall.findFile? ["a"] = none
      ∧ rmtree_onerror fxSmall ["a"] = .ok (fxSmall.removeDir ["a"])
      ∧ rmtree_onerror (fxSmall.removeDir ["a"]) ["a"] = .ok (fxSmall.removeDir ["a"]))
    ∧ (PyErr.permissionDenied ≠ PyErr.fileNotFound
      ∧ ignore_missing_dir_error .permissionDenied = .error .permissionDenied) :=
  ⟨⟨rfl, rfl, claim_C7_rmtree_ignore_missing.1 fxSmall ["q"] rfl rfl⟩,
    ⟨rfl, by decide, rfl,
      (claim_C7_rmtree_ignore_missing.2.1 fxSmall ["a"] rfl (by decide) rfl).1,
      (claim_C7_rmtree_ignore_missing.2.1 fxSmall ["a"] rfl (by decide) rfl).2⟩,
    ⟨by decide,
      claim_C7_rmtree_ignore_missing.2.2.2 PyErr.permissionDenied (by decide)⟩⟩

/-! ### Claim C8: flock serialization -/

theorem foldl_lockStep_none (l : List LockEv) : l.foldl lockStep none = none := by
  induction l with
  | nil => rfl
  | cons ev rest ih => simpa [lockStep] using ih

theorem foldl_lockStep_isSome {l : List LockEv} {st : Option (List (Nat × Bool))}
    (h : (l.foldl lockStep st).isSome = true) : st.isSome = true := by
  induction l generalizing st with
  | nil => exact h
  | cons ev rest ih =>
    rw [List.foldl_cons] at h
    have h2 := ih h
    cases st with
    | none => simp [lockStep] at h2
    | some hs => rfl

theorem lockStep_acq_mem {hs hs' : List (Nat × Bool)} {p : Nat} {e : Bool}
    (h : lockStep (some hs) (.acq p e) = some hs') : (p, e) ∈ hs' := by
  simp only [lockStep, Option.some_bind] at h
  by_cases h1 : hs.any (fun h => h.1 == p)
  · simp [h1] at h
  · simp only [h1] at h
    cases e with
    | true =>
      by_cases h2 : hs.isEmpty
      · simp [h2] at h
        rw [← h]
        simp
      · simp [h2] at h
    | false =>
      by_cases h2 : hs.any (fun h => h.2)
      · simp [h2] at h
      · simp [h2] at h
        rw [← h]
        simp

/-- While a process holds the lock and does not release it, it stays a holder
through every further valid step. -/
theorem holder_persists :
    ∀ (t2 : List LockEv) (hs : List (Nat × Bool)) (p : Nat) (e1 : Bool),
      (p, e1) ∈ hs → LockEv.rel p ∉ t2 →
      ∀ st', t2.foldl lockStep (some hs) = some st' → (p, e1) ∈ st' := by
  intro t2
  induction t2 with
  | nil =>
    intro hs p e1 hmem hrel st' hfold
    injection hfold with hfold
    rw [← hfold]
    exact hmem
  | cons ev rest ih =>
    intro hs p e1 hmem hrel st' hfold
    rw [List.foldl_cons] at hfold
    cases hstep : lockStep (some hs) ev with
    | none =>
      rw [hstep, foldl_lockStep_none] at hfold
      exact absurd hfold (by simp)
    | some hs2 =>
      rw [hstep] at hfold
      have hrel2 : LockEv.rel p ∉ rest := fun hh => hrel (List.mem_cons_of_mem _ hh)
      refine ih hs2 p e1 ?_ hrel2 st' hfold
      cases ev with
      | acq q e =>
        simp only [lockStep, Option.some_bind] at hstep
        by_cases h1 : hs.any (fun h => h.1 == q)
        · simp [h1] at hstep
        · simp only [h1] at hstep
          cases e with
          | true =>
            by_cases h2 : hs.isEmpty
            · simp [h2] at hstep
              rw [← hstep]
              exact List.mem_cons_of_mem _ hmem
            · simp [h2] at hstep
          | false =>
            by_cases h2 : hs.any (fun h => h.2)
            · simp [h2] at hstep
            · simp [h2] at hstep
              rw [← hstep]
              exact List.mem_cons_of_mem _ hmem
      | rel q =>
        have hq : q ≠ p := by
          intro he
          exact hrel (by rw [he]; exact List.mem_cons_self _ _)
        simp only [lockStep, Option.some_bind] at hstep
        by_cases h1 : hs.any (fun h => h.1 == q)
        · simp only [h1, if_pos] at hstep
          injection hstep with hstep
          rw [← hstep]
          rw [List.mem_filter]
          refine ⟨hmem, ?_⟩
          simp only [bne_iff_ne, ne_eq, decide_eq_true_eq]
          omega
        · simp [h1] at hstep

/-- C8: under the flock semantics, when two distinct processes lock the same
resource and at least one requests the exclusive mode, the first acquirer's
release occurs strictly between the two acquisitions in every realizable
interleaving (its whole critical section precedes the second acquirer's
entry); when both request the shared mode, an interleaving exists in which the
second process enters and leaves its critical section before the first
releases. -/
theorem claim_C8_fd_lock_serialization
    : (∀ (t1 t2 t3 : List LockEv) (p q : Nat) (e1 e2 : Bool), p ≠ q →
        (e1 = true ∨ e2 = true) →
        validTrace (t1 ++ LockEv.acq p e1 :: (t2 ++ LockEv.acq q e2 :: t3)) = true →
        LockEv.rel p ∈ t2)
      ∧ validTrace [LockEv.acq 1 false, LockEv.acq 2 false,
          LockEv.rel 2, LockEv.rel 1] = true := by
  refine ⟨?_, by decide⟩
  intro t1 t2 t3 p q e1 e2 hpq hex hvalid
  by_contra hrel
  rw [validTrace, List.foldl_append, List.foldl_cons, List.foldl_append,
    List.foldl_cons] at hvalid
  set s1 := t1.foldl lockStep (some []) with hs1
  have hsome3 : (lockStep (t2.foldl lockStep (lockStep s1 (LockEv.acq p e1)))
      (LockEv.acq q e2)).isSome = true := foldl_lockStep_isSome hvalid
  have hsome2 : ((t2.foldl lockStep (lockStep s1 (LockEv.acq p e1)))).isSome = true := by
    cases hc : t2.foldl lockStep (lockStep s1 (LockEv.acq p e1)) with
    | none => rw [hc] at hsome3; simp [lockStep] at hsome3
    | some hs => rfl
  have hsome1 : (lockStep s1 (LockEv.acq p e1)).isSome = true :=
    foldl_lockStep_isSome hsome2
  obtain ⟨hs2, hstep2⟩ : ∃ hs2, lockStep s1 (LockEv.acq p e1) = some hs2 := by
    cases hc : lockStep s1 (LockEv.acq p e1) with
    | none => rw [hc] at hsome1; simp at hsome1
    | some v => exact ⟨v, rfl⟩
  obtain ⟨hs0, hstep0⟩ : ∃ hs0, s1 = some hs0 := by
    cases hc : s1 with
    | none => rw [hc] at hstep2; simp [lockStep] at hstep2
    | some v => exact ⟨v, rfl⟩
  rw [hstep0] at hstep2
  have hpmem : (p, e1) ∈ hs2 := lockStep_acq_mem hstep2
  obtain ⟨hs3, hstep3⟩ :
      ∃ hs3, t2.foldl lockStep (some hs2) = some hs3 := by
    rw [hstep0, hstep2] at hsome2
    cases hc : t2.foldl lockStep (some hs2) with
    | none => rw [hc] at hsome2; simp at hsome2
    | some v => exact ⟨v, rfl⟩
  have hpmem3 : (p, e1) ∈ hs3 := holder_persists t2 hs2 p e1 hpmem hrel hs3 hstep3
  have hfinal : lockStep (some hs3) (LockEv.acq q e2) = none := by
    simp only [lockStep, Option.some_bind]
    by_cases h1 : hs3.any (fun h => h.1 == q)
    · simp [h1]
    · simp only [h1]
      rcases hex with he | he
      · subst he
        have h2 : hs3.any (fun h => h.2) = true :=
          List.any_eq_true.mpr ⟨(p, true), hpmem3, rfl⟩
        cases e2 with
        | true =>
          have hne : hs3.isEmpty = false := by
            cases hs3 with
            | nil => simp at hpmem3
            | cons a b => rfl
          simp [hne]
        | false => simp [h2]
      · subst he
        have hne : hs3.isEmpty = false := by
          cases hs3 with
          | nil => simp at hpmem3
          | cons a b => rfl
        simp [hne]
  rw [hstep0, hstep2, hstep3, hfinal, foldl_lockStep_none] at hvalid
  simp at hvalid

/-- Witness for C8: at a concrete exclusive/exclusive trace the first
process's release lies between the two acquisitions. -/
theorem claim_C8_witness :
    ((1 : Nat) ≠ 2 ∧ (true = true ∨ true = true)
      ∧ validTrace ([] ++ LockEv.acq 1 true :: ([LockEv.rel 1]
          ++ LockEv.acq 2 true :: [])) = true
      ∧ LockEv.rel 1 ∈ [LockEv.rel 1]) :=
  ⟨by decide, Or.inl rfl, by decide,
    claim_C8_fd_lock_serialization.1 [] [LockEv.rel 1] [] 1 2 true true
      (by decide) (Or.inl rfl) (by decide)⟩

/-! ### Claim C6: script-directory resolution and lock scoping -/

/-- C6: when the conventional script files directory does not exist,
`copy_test_script_files` returns an empty CopyRecord with no handle or lock
activity and no error; when it exists, the copy is performed under an open
handle holding a shared (non-exclusive) lock, whose events bracket the whole
scope; and the `fd_open`/`fd_lock` scopes close the handle and release the
lock around any body outcome, including a failing one (the `try/finally` of
the source always runs the release). -/
theorem claim_C6_copy_test_script_files (fs : FSTree) (outer : Path)
    (fname : String) (tests_path : Path)
    : (fs.isDir (outer ++ [fname]) = false →
        copy_test_script_files fs outer fname tests_path = (([], fs), []))
      ∧ (∀ t, fs.findDir? (outer ++ [fname]) = some t →
          ∃ r, copy_tree fs (outer ++ [fname]) tests_path [] = some r ∧
            copy_test_script_files fs outer fname tests_path
              = (r, [FMEvent.opened, FMEvent.locked false,
                  FMEvent.unlocked, FMEvent.closed]))
      ∧ (∀ (α : Type) (v : Except PyErr α) (tr : List FMEvent),
          (fd_open (fd_lock false (v, tr))).1 = v
            ∧ (fd_open (fd_lock false (v, tr))).2
              = FMEvent.opened :: FMEvent.locked false :: tr
                ++ [FMEvent.unlocked, FMEvent.closed]) := by
  refine ⟨?_, ?_, ?_⟩
  · intro h
    simp [copy_test_script_files, h]
  · intro t ht
    have hdir : fs.isDir (outer ++ [fname]) = true := by
      simp [FSTree.isDir, ht]
    refine ⟨(((iglT (outer ++ [fname]) t).foldl
        (copyStep (outer ++ [fname]) tests_path []) (fs, [])).2,
      ((iglT (outer ++ [fname]) t).foldl
        (copyStep (outer ++ [fname]) tests_path []) (fs, [])).1), ?_, ?_⟩
    · simp [copy_tree, ht]
    · simp [copy_test_script_files, hdir, fd_open, fd_lock, copy_tree, ht]
  · intro α v tr
    refine ⟨rfl, ?_⟩
    simp [fd_open, fd_lock]

/-- Witness for C6: a present and an absent script directory at concrete
inputs, and the lock scope around a failing body. -/
theorem claim_C6_witness :
    (fxSmall.isDir (["scripts"] ++ ["files"]) = false
      ∧ copy_test_script_files fxSmall ["scripts"] "files" ["w"] = (([], fxSmall), []))
    ∧ (fxSetupOk.findDir? (["scripts"] ++ ["files"])
        = some (.mk [] [("b", "y")])
      ∧ ∃ r, copy_tree fxSetupOk (["scripts"] ++ ["files"]) ["w"] [] = some r ∧
          copy_test_script_files fxSetupOk ["scripts"] "files" ["w"]
            = (r, [FMEvent.opened, FMEvent.locked false,
                FMEvent.unlocked, FMEvent.closed]))
    ∧ ((fd_open (fd_lock false ((Except.error PyErr.permissionDenied
          : Except PyErr Unit), []))).1 = Except.error PyErr.permissionDenied
      ∧ (fd_open (fd_lock false ((Except.error PyErr.permissionDenied
          : Except PyErr Unit), []))).2
        = FMEvent.opened :: FMEvent.locked false :: []
            ++ [FMEvent.unlocked, FMEvent.closed]) :=
  ⟨⟨rfl, (claim_C6_copy_test_script_files fxSmall ["scripts"] "files" ["w"]).1 rfl⟩,
    ⟨rfl, (claim_C6_copy_test_script_files fxSetupOk ["scripts"] "files" ["w"]).2.1
      (.mk [] [("b", "y")]) rfl⟩,
    (claim_C6_copy_test_script_files fxSmall ["scripts"] "files" ["w"]).2.2
      Unit (Except.error PyErr.permissionDenied) []⟩

/-! ### Kinds and path duplicates in the walk -/

theorem iglT_kind :
    ∀ t : FSTree, ∀ base : Path, ∀ e : Entry, e ∈ iglT base t →
      e.1 = 'd' ∨ e.1 = 'f' := by
  refine FSTree.ind _ ?_
  intro ds fs ih base e he
  rw [iglT_node] at he
  rcases List.mem_append.mp he with he | he
  · rcases List.mem_append.mp he with he | he
    · obtain ⟨d, hd, rfl⟩ := List.mem_map.mp he
      exact Or.inl rfl
    · obtain ⟨f, hf, rfl⟩ := List.mem_map.mp he
      exact Or.inr rfl
  · obtain ⟨n, sub, hd, hes⟩ := mem_walk_flatten he
    exact ih n sub hd (base ++ [n]) e hes

theorem walks_flatten_paths_nodup (base : Path) :
    ∀ ds : List (String × FSTree),
      (ds.map Prod.fst).Nodup →
      (∀ n sub, (n, sub) ∈ ds → ((iglT (base ++ [n]) sub).map Prod.snd).Nodup) →
      (((ds.map (fun d => iglT (base ++ [d.1]) d.2)).flatten).map Prod.snd).Nodup := by
  intro ds
  induction ds with
  | nil => simp
  | cons d rest ihds =>
    obtain ⟨n, sub⟩ := d
    intro hnd hnodup
    simp only [List.map_cons, List.flatten_cons, List.map_append]
    rw [List.nodup_append]
    refine ⟨hnodup n sub (by simp), ?_, ?_⟩
    · refine ihds ?_ ?_
      · simpa using hnd.of_cons
      · exact fun m s hm => hnodup m s (by simp [hm])
    · intro p hp1 hp2
      obtain ⟨e1, he1, rfl⟩ := List.mem_map.mp hp1
      rw [List.map_flatten] at hp2
      rw [List.mem_flatten] at hp2
      obtain ⟨s, hs, hes⟩ := hp2
      rw [List.map_map, List.mem_map] at hs
      obtain ⟨⟨m, smm⟩, hm, rfl⟩ := hs
      simp only [Function.comp] at hes
      obtain ⟨e2, he2, hpe⟩ := List.mem_map.mp hes
      have hpre1 := (iglT_shape sub (base ++ [n]) e1 he1).1
      have hpre2 := (iglT_shape smm (base ++ [m]) e2 he2).1
      rw [hpe] at hpre2
      have hnm : n ≠ m := by
        intro he
        subst he
        rw [List.map_cons, List.nodup_cons] at hnd
        exact hnd.1 (List.mem_map.mpr ⟨(n, smm), hm, rfl⟩)
      exact sibling_not_ancestor hnm hpre1 hpre2

/-- The walk of a well-formed tree yields no path twice (even across the
directory/file kinds, since names inside one directory are distinct across
both listings). -/
theorem iglT_paths_nodup :
    ∀ t : FSTree, t.wf = true → ∀ base : Path,
      ((iglT base t).map Prod.snd).Nodup := by
  refine FSTree.ind _ ?_
  intro ds fs ih hwf base
  obtain ⟨hnd, hch⟩ := (wf_node_iff ds fs).mp hwf
  obtain ⟨hndd, hndf, hdisjk⟩ := List.nodup_append.mp hnd
  rw [iglT_node]
  simp only [List.map_append]
  rw [List.nodup_append]
  refine ⟨?_, ?_, ?_⟩
  · rw [List.nodup_append]
    refine ⟨?_, ?_, ?_⟩
    · rw [List.map_map]
      rw [show ((fun e : Entry => e.2) ∘ (fun d : String × FSTree => (('d', base ++ [d.1]) : Entry)))
          = (fun n : String => base ++ [n]) ∘ Prod.fst from rfl, ← List.map_map]
      refine hndd.map ?_
      intro a b hab
      simpa using List.append_cancel_left hab
    · rw [List.map_map]
      rw [show ((fun e : Entry => e.2) ∘ (fun f : String × String => (('f', base ++ [f.1]) : Entry)))
          = (fun n : String => base ++ [n]) ∘ Prod.fst from rfl, ← List.map_map]
      refine hndf.map ?_
      intro a b hab
      simpa using List.append_cancel_left hab
    · intro p hp1 hp2
      rw [List.map_map, List.mem_map] at hp1 hp2
      obtain ⟨d, hd, rfl⟩ := hp1
      obtain ⟨f, hf, hfe⟩ := hp2
      simp only [Function.comp] at hfe
      have hk : f.1 = d.1 := by simpa using List.append_cancel_left hfe
      exact hdisjk (List.mem_map.mpr ⟨d, hd, rfl⟩)
        (hk ▸ List.mem_map.mpr ⟨f, hf, rfl⟩)
  · exact walks_flatten_paths_nodup base ds hndd
      (fun n sub hm => ih n sub hm (hch n sub hm) (base ++ [n]))
  · intro p hp1 hp2
    rw [List.map_flatten, List.mem_flatten] at hp2
    obtain ⟨s, hs, hes⟩ := hp2
    rw [List.map_map, List.mem_map] at hs
    obtain ⟨⟨m, smm⟩, hm, rfl⟩ := hs
    simp only [Function.comp] at hes
    obtain ⟨e2, he2, hpe⟩ := List.mem_map.mp hes
    have hlen2 := (iglT_shape smm (base ++ [m]) e2 he2).2
    rw [hpe] at hlen2
    rcases List.mem_append.mp hp1 with hp | hp
    · rw [List.map_map, List.mem_map] at hp
      obtain ⟨d, hd, rfl⟩ := hp
      simp only [Function.comp] at hlen2 ⊢
      simp at hlen2
    · rw [List.map_map, List.mem_map] at hp
      obtain ⟨f, hf, rfl⟩ := hp
      simp only [Function.comp] at hlen2 ⊢
      simp at hlen2

/-! ### Claim C5 (amended): the copy never changes a separated source -/

/-- C5 amended: for every source tree, destination and exclude set, provided
neither of `src` and `dst` is a path prefix of the other (in particular the
destination does not lie inside the source), `copy_tree` never changes the
source tree: the subtree at `src`, any file at `src`, and every directory and
file below `src` are identical before and after the call. -/
theorem claim_C5_amended (fs : FSTree) (src dst : Path) (exclude : List Path)
    (t : FSTree) (h : fs.findDir? src = some t)
    (sep1 : ¬ src <+: dst) (sep2 : ¬ dst <+: src) :
    ∃ rec fs1, copy_tree fs src dst exclude = some (rec, fs1) ∧
      fs1.findDir? src = fs.findDir? src ∧
      fs1.findFile? src = fs.findFile? src ∧
      (∀ q : Path, q ≠ [] →
        fs1.findDir? (src ++ q) = fs.findDir? (src ++ q)
          ∧ fs1.findFile? (src ++ q) = fs.findFile? (src ++ q)) := by
  rw [copy_tree_eq dst exclude h]
  refine ⟨_, _, rfl, ?_⟩
  have hrel : ∀ e ∈ iglT src t, relpath e.2 src ≠ [] := by
    intro e he
    exact relpath_ne_nil (iglT_shape t src e he).2
  have hpres := foldl_fsStep_pres src dst exclude (iglT src t) fs src hrel sep2 sep1
  refine ⟨hpres.1, hpres.2, ?_⟩
  intro q hq
  constructor
  · rw [findDir?_append, findDir?_append, hpres.1]
  · rw [findFile?_append _ _ _ hq, findFile?_append _ _ _ hq, hpres.1]

/-- Witness for C5 amended at a concrete separated source and destination. -/
theorem claim_C5_amended_witness :
    (fxSmall.findDir? ["a"] = some (.mk [] [("f", "x")])
      ∧ ¬ (["a"] : Path) <+: ["d"] ∧ ¬ (["d"] : Path) <+: ["a"])
    ∧ (∃ rec fs1, copy_tree fxSmall ["a"] ["d"] [] = some (rec, fs1) ∧
        fs1.findDir? ["a"] = fxSmall.findDir? ["a"] ∧
        fs1.findFile? ["a"] = fxSmall.findFile? ["a"] ∧
        (∀ q : Path, q ≠ [] →
          fs1.findDir? (["a"] ++ q) = fxSmall.findDir? (["a"] ++ q)
            ∧ fs1.findFile? (["a"] ++ q) = fxSmall.findFile? (["a"] ++ q))) :=
  ⟨⟨rfl, by decide, by decide⟩,
    claim_C5_amended fxSmall ["a"] ["d"] [] (.mk [] [("f", "x")]) rfl
      (by decide) (by decide)⟩

/-! ### The chmod folds of setup_files -/

theorem chmod_fold_not_mem (modeF : Entry → Nat) :
    ∀ (l : List Entry) (m : Modes) (p : Path), (∀ e ∈ l, e.2 ≠ p) →
      lookupA (l.foldl (fun mm e => setA mm e.2 (modeF e)) m) p = lookupA m p := by
  intro l
  induction l with
  | nil => intro m p _; rfl
  | cons e rest ih =>
    intro m p h
    rw [List.foldl_cons, ih _ _ (fun e' he' => h e' (by simp [he']))]
    exact lookupA_setA_ne m e.2 p (modeF e) (fun hh => h e (by simp) hh.symm)

theorem chmod_fold_mem (modeF : Entry → Nat) :
    ∀ (l : List Entry) (m : Modes) (e : Entry), e ∈ l → (l.map Prod.snd).Nodup →
      lookupA (l.foldl (fun mm e => setA mm e.2 (modeF e)) m) e.2 = some (modeF e) := by
  intro l
  induction l with
  | nil => intro m e he _; simp at he
  | cons e0 rest ih =>
    intro m e he hnd
    rw [List.foldl_cons]
    rw [List.map_cons, List.nodup_cons] at hnd
    rcases List.mem_cons.mp he with rfl | hmem
    · have hne : ∀ e' ∈ rest, e'.2 ≠ e.2 := by
        intro e' he' hh
        exact hnd.1 (hh ▸ List.mem_map.mpr ⟨e', he', rfl⟩)
      rw [chmod_fold_not_mem modeF rest _ e.2 hne]
      exact lookupA_setA_self m e.2 (modeF e)
    · exact ih _ e hmem hnd.2

theorem keptB_nil (src : Path) (e : Entry) : keptB src [] e = true := by
  simp [keptB]

theorem filter_keptB_nil (src : Path) (l : List Entry) :
    l.filter (keptB src []) = l :=
  List.filter_eq_self.mpr (fun e _ => keptB_nil src e)

/-- The record targets of one walk are duplicate-free paths. -/
theorem record_paths_nodup {src : Path} {t : FSTree} (dst : Path) (hwf : t.wf = true) :
    (((iglT src t).map (retarget src dst)).map Prod.snd).Nodup := by
  rw [List.map_map]
  rw [show ((fun e : Entry => e.2) ∘ retarget src dst)
      = (fun p => dst ++ relpath p src) ∘ (fun e : Entry => e.2) from rfl, ← List.map_map]
  refine List.Nodup.map_on ?_ (iglT_paths_nodup t hwf src)
  intro p hp q hq hfeq
  obtain ⟨ep, hep, rfl⟩ := List.mem_map.mp hp
  obtain ⟨eq2, heq2, rfl⟩ := List.mem_map.mp hq
  have hps : src <+: ep.2 := (iglT_shape t src ep hep).1
  have hqs : src <+: eq2.2 := (iglT_shape t src eq2 heq2).1
  have hcan := List.append_cancel_left hfeq
  rw [eq_append_relpath hps, eq_append_relpath hqs, hcan]

/-- Every record target lies strictly below the destination. -/
theorem record_path_below {src dst : Path} {t : FSTree} {e : Entry}
    (he : e ∈ (iglT src t).map (retarget src dst)) :
    ∃ r, r ≠ [] ∧ e.2 = dst ++ r := by
  obtain ⟨e0, he0, rfl⟩ := List.mem_map.mp he
  exact ⟨relpath e0.2 src, relpath_ne_nil (iglT_shape t src e0 he0).2, rfl⟩

theorem record_path_ne_dst {src dst : Path} {t : FSTree} {e : Entry}
    (he : e ∈ (iglT src t).map (retarget src dst)) : e.2 ≠ dst := by
  obtain ⟨r, hr, hre⟩ := record_path_below he
  rw [hre]
  intro hh
  have := congrArg List.length hh
  simp at this
  exact hr this

/-! ### Claim C1 (amended): the permission matrix of setup_files -/

/-- C1 amended: after `setup_files` completes — whether the shared script
directory exists (its record disjoint from the student record on workspace
paths) or is absent (empty script record) — with the three directories
involved pairwise prefix-incomparable as on a real deployment, every entry of
the student record has mode `0o777` (directory) or `0o666` (file), every
entry of the script record has mode `0o755` (directory) or `0o644` (file),
and the workspace root keeps mode `0o1770`. -/
theorem claim_C1_amended
    (fs : FSTree) (m0 : Modes) (files_path tests_path outer : Path) (fname : String)
    (tS : FSTree)
    (hS : fs.findDir? files_path = some tS) (hwfS : tS.wf = true)
    (sepA1 : ¬ files_path <+: tests_path) (sepA2 : ¬ tests_path <+: files_path)
    (sepB1 : ¬ (outer ++ [fname]) <+: tests_path)
    (sepB2 : ¬ tests_path <+: (outer ++ [fname]))
    (sepC1 : ¬ (outer ++ [fname]) <+: files_path)
    (sepC2 : ¬ files_path <+: (outer ++ [fname]))
    (hscript : fs.findDir? (outer ++ [fname]) = none
      ∨ ∃ tC, fs.findDir? (outer ++ [fname]) = some tC ∧ tC.wf = true
          ∧ (∀ e ∈ iglT files_path tS, ∀ e' ∈ iglT (outer ++ [fname]) tC,
              relpath e.2 files_path ≠ relpath e'.2 (outer ++ [fname]))) :
    ∃ fsR m sr cr,
      setup_files fs m0 files_path tests_path outer fname = some (fsR, m, sr, cr)
      ∧ (∀ e ∈ sr, lookupA m e.2 = some (if e.1 = 'd' then 0o777 else 0o666))
      ∧ (∀ e ∈ cr, lookupA m e.2 = some (if e.1 = 'd' then 0o755 else 0o644))
      ∧ lookupA m tests_path = some 0o1770 := by
  have hrelS : ∀ e ∈ iglT files_path tS, relpath e.2 files_path ≠ [] :=
    fun e he => relpath_ne_nil (iglT_shape tS files_path e he).2
  -- the student move
  have h0 : (fs.mkdirs tests_path).findDir? files_path = some tS := by
    rw [findDir?_mkdirs_indep sepA2 sepA1, hS]
  have hpresS := foldl_fsStep_pres files_path tests_path [] (iglT files_path tS)
    (fs.mkdirs tests_path) files_path hrelS sepA2 sepA1
  have hdirS : ((iglT files_path tS).foldl (fsStep files_path tests_path [])
      (fs.mkdirs tests_path)).isDir files_path = true := by
    rw [FSTree.isDir, hpresS.1, h0]
    rfl
  have hmv : move_tree fs files_path tests_path
      = some ((iglT files_path tS).map (retarget files_path tests_path),
          ((iglT files_path tS).foldl (fsStep files_path tests_path [])
            (fs.mkdirs tests_path)).removeDir files_path) := by
    rw [move_tree, copy_tree_eq tests_path [] h0, filter_keptB_nil]
    simp [rmtree_onerror, hdirS]
  -- the script resolution sees the untouched script location
  have hsd_eq : (((iglT files_path tS).foldl (fsStep files_path tests_path [])
      (fs.mkdirs tests_path)).removeDir files_path).findDir? (outer ++ [fname])
      = fs.findDir? (outer ++ [fname]) := by
    have hpresC := foldl_fsStep_pres files_path tests_path [] (iglT files_path tS)
      (fs.mkdirs tests_path) (outer ++ [fname]) hrelS sepB2 sepB1
    rw [findDir?_removeDir_indep sepC2 sepC1, hpresC.1,
      findDir?_mkdirs_indep sepB2 sepB1]
  rcases hscript with hnone | ⟨tC, hC, hwfC, hdisj⟩
  · -- the script directory is absent: empty script record, no script chmod
    have hnd : (((iglT files_path tS).foldl (fsStep files_path tests_path [])
        (fs.mkdirs tests_path)).removeDir files_path).isDir (outer ++ [fname])
        = false := by
      rw [FSTree.isDir, hsd_eq, hnone]
      rfl
    have hcsf : copy_test_script_files
        (((iglT files_path tS).foldl (fsStep files_path tests_path [])
          (fs.mkdirs tests_path)).removeDir files_path) outer fname tests_path
        = (([], ((iglT files_path tS).foldl (fsStep files_path tests_path [])
            (fs.mkdirs tests_path)).removeDir files_path), []) := by
      rw [copy_test_script_files, if_neg (by simp [hnd])]
    have hsetup : setup_files fs m0 files_path tests_path outer fname
        = some (((iglT files_path tS).foldl (fsStep files_path tests_path [])
              (fs.mkdirs tests_path)).removeDir files_path,
            ((iglT files_path tS).map (retarget files_path tests_path)).foldl
              (fun mm e => setA mm e.2 (if e.1 = 'd' then 0o777 else 0o666))
              (setA m0 tests_path 0o1770),
            (iglT files_path tS).map (retarget files_path tests_path),
            []) := by
      simp only [setup_files, hmv, Option.map_some', hcsf, List.foldl_nil]
    refine ⟨_, _, _, _, hsetup, ?_, ?_, ?_⟩
    · intro e he
      exact chmod_fold_mem _ _ _ e he (record_paths_nodup tests_path hwfS)
    · intro e he
      simp at he
    · rw [chmod_fold_not_mem _ _ _ _ (fun e' he' => record_path_ne_dst he')]
      exact lookupA_setA_self m0 tests_path 0o1770
  · -- the script directory exists: the copy sees the untouched script tree
    have hsd : (((iglT files_path tS).foldl (fsStep files_path tests_path [])
        (fs.mkdirs tests_path)).removeDir files_path).findDir? (outer ++ [fname])
        = some tC := by
      rw [hsd_eq, hC]
    have hcsf : copy_test_script_files
        (((iglT files_path tS).foldl (fsStep files_path tests_path [])
          (fs.mkdirs tests_path)).removeDir files_path) outer fname tests_path
        = (((iglT (outer ++ [fname]) tC).map (retarget (outer ++ [fname]) tests_path),
            ((iglT (outer ++ [fname]) tC).foldl
              (fsStep (outer ++ [fname]) tests_path [])
              (((iglT files_path tS).foldl (fsStep files_path tests_path [])
                (fs.mkdirs tests_path)).removeDir files_path))),
          [FMEvent.opened, FMEvent.locked false, FMEvent.unlocked, FMEvent.closed]) := by
      have hdirC : (((iglT files_path tS).foldl (fsStep files_path tests_path [])
          (fs.mkdirs tests_path)).removeDir files_path).isDir (outer ++ [fname]) = true := by
        rw [FSTree.isDir, hsd]
        rfl
      rw [copy_test_script_files]
      rw [if_pos hdirC, copy_tree_eq tests_path [] hsd, filter_keptB_nil]
      rfl
    have hsetup : setup_files fs m0 files_path tests_path outer fname
        = some ((iglT (outer ++ [fname]) tC).foldl
              (fsStep (outer ++ [fname]) tests_path [])
              (((iglT files_path tS).foldl (fsStep files_path tests_path [])
                (fs.mkdirs tests_path)).removeDir files_path),
            ((iglT (outer ++ [fname]) tC).map
                (retarget (outer ++ [fname]) tests_path)).foldl
              (fun mm e => setA mm e.2 (0o755 - (if e.1 = 'f' then 0o111 else 0)))
              (((iglT files_path tS).map (retarget files_path tests_path)).foldl
                (fun mm e => setA mm e.2 (if e.1 = 'd' then 0o777 else 0o666))
                (setA m0 tests_path 0o1770)),
            (iglT files_path tS).map (retarget files_path tests_path),
            (iglT (outer ++ [fname]) tC).map (retarget (outer ++ [fname]) tests_path)) := by
      simp only [setup_files, hmv, Option.map_some', hcsf]
    refine ⟨_, _, _, _, hsetup, ?_, ?_, ?_⟩
    · -- student modes
      intro e he
      have hnotC : ∀ e' ∈ (iglT (outer ++ [fname]) tC).map
          (retarget (outer ++ [fname]) tests_path), e'.2 ≠ e.2 := by
        intro e' he' hh
        obtain ⟨e0, he0, rfl⟩ := List.mem_map.mp he
        obtain ⟨e1, he1, rfl⟩ := List.mem_map.mp he'
        have := List.append_cancel_left hh
        exact hdisj e0 he0 e1 he1 this.symm
      rw [chmod_fold_not_mem _ _ _ _ hnotC]
      exact chmod_fold_mem _ _ _ e he (record_paths_nodup tests_path hwfS)
    · -- script modes
      intro e he
      rw [chmod_fold_mem _ _ _ e he (record_paths_nodup tests_path hwfC)]
      obtain ⟨e0, he0, rfl⟩ := List.mem_map.mp he
      rcases iglT_kind tC (outer ++ [fname]) e0 he0 with hk | hk
      · rw [show (retarget (outer ++ [fname]) tests_path e0).1 = e0.1 from rfl, hk]
        rfl
      · rw [show (retarget (outer ++ [fname]) tests_path e0).1 = e0.1 from rfl, hk]
        rfl
    · -- the workspace root keeps its mode
      rw [chmod_fold_not_mem _ _ _ _ (fun e' he' => record_path_ne_dst he')]
      rw [chmod_fold_not_mem _ _ _ _ (fun e' he' => record_path_ne_dst he')]
      exact lookupA_setA_self m0 tests_path 0o1770

/-- Witness for C1 amended at a concrete deployment-shaped filesystem with
disjoint student and script trees. -/
theorem claim_C1_amended_witness :
    (fxSetupOk.findDir? ["sub"] = some (.mk [] [("a", "x")])
      ∧ FSTree.wf (.mk [] [("a", "x")]) = true
      ∧ fxSetupOk.findDir? (["scripts"] ++ ["files"]) = some (.mk [] [("b", "y")])
      ∧ FSTree.wf (.mk [] [("b", "y")]) = true
      ∧ (∀ e ∈ iglT ["sub"] (.mk [] [("a", "x")]),
          ∀ e' ∈ iglT (["scripts"] ++ ["files"]) (.mk [] [("b", "y")]),
            relpath e.2 ["sub"] ≠ relpath e'.2 (["scripts"] ++ ["files"])))
    ∧ (∃ fsR m sr cr, setup_files fxSetupOk [] ["sub"] ["w"] ["scripts"] "files"
          = some (fsR, m, sr, cr)
        ∧ (∀ e ∈ sr, lookupA m e.2 = some (if e.1 = 'd' then 0o777 else 0o666))
        ∧ (∀ e ∈ cr, lookupA m e.2 = some (if e.1 = 'd' then 0o755 else 0o644))
        ∧ lookupA m ["w"] = some 0o1770) :=
  ⟨⟨rfl, rfl, rfl, rfl, by decide⟩,
    claim_C1_amended fxSetupOk [] ["sub"] ["w"] ["scripts"] "files"
      (.mk [] [("a", "x")]) rfl rfl
      (by decide) (by decide) (by decide) (by decide) (by decide) (by decide)
      (Or.inr ⟨.mk [] [("b", "y")], rfl, rfl, by decide⟩)⟩

/-! ### What the copy loop creates under the destination -/

theorem findFile?_writeFile_self {t : FSTree} {p : Path} (hp : p ≠ [])
    (hdir : t.isDir p.dropLast = true) (c : String) :
    (t.writeFile p c).findFile? p = some c := by
  induction p generalizing t with
  | nil => exact absurd rfl hp
  | cons n rest ih =>
    obtain ⟨ds, fs⟩ := t
    cases rest with
    | nil =>
      have hw : (FSTree.mk ds fs).writeFile [n] c = FSTree.mk ds (setFileA fs n c) := rfl
      rw [hw, findFile?_single]
      exact lookupA_setA_self fs n c
    | cons r rs =>
      have hdl : (n :: r :: rs).dropLast = n :: (r :: rs).dropLast := rfl
      rw [hdl] at hdir
      simp only [FSTree.isDir] at hdir
      cases hl : lookupA ds n with
      | none =>
        rw [show (FSTree.mk ds fs).findDir? (n :: (r :: rs).dropLast)
            = none from by simp [FSTree.findDir?, hl]] at hdir
        simp at hdir
      | some sub =>
        have hsub : sub.isDir (r :: rs).dropLast = true := by
          rw [show (FSTree.mk ds fs).findDir? (n :: (r :: rs).dropLast)
              = sub.findDir? (r :: rs).dropLast from by simp [FSTree.findDir?, hl]] at hdir
          exact hdir
        have hw : (FSTree.mk ds fs).writeFile (n :: r :: rs) c
            = FSTree.mk (updateA ds n (sub.writeFile (r :: rs) c)) fs := by
          simp only [FSTree.writeFile, hl]
        rw [hw, show (n :: r :: rs) = [n] ++ (r :: rs) from rfl,
          findFile?_append _ _ _ (List.cons_ne_nil r rs)]
        have hsome : (lookupA ds n).isSome := by rw [hl]; rfl
        simp only [FSTree.findDir?,
          lookupA_updateA_self ds n (sub.writeFile (r :: rs) c) hsome,
          Option.some_bind]
        exact ih (List.cons_ne_nil r rs) hsub

theorem mem_nonNilPrefixes (q p : Path) :
    q ∈ nonNilPrefixes p ↔ q ≠ [] ∧ q <+: p := by
  induction p generalizing q with
  | nil =>
    simp only [nonNilPrefixes, List.not_mem_nil, false_iff]
    rintro ⟨hne, hpre⟩
    exact hne (List.prefix_nil.mp hpre)
  | cons n rest ih =>
    simp only [nonNilPrefixes, List.mem_cons, List.mem_map]
    constructor
    · rintro (rfl | ⟨q', hq', rfl⟩)
      · exact ⟨by simp, List.cons_prefix_cons.mpr ⟨rfl, List.nil_prefix⟩⟩
      · obtain ⟨hne, hpre⟩ := (ih q').mp hq'
        exact ⟨by simp, List.cons_prefix_cons.mpr ⟨rfl, hpre⟩⟩
    · rintro ⟨hne, hpre⟩
      cases q with
      | nil => exact absurd rfl hne
      | cons m q' =>
        obtain ⟨rfl, hpre'⟩ := List.cons_prefix_cons.mp hpre
        cases q' with
        | nil => exact Or.inl rfl
        | cons a b =>
          exact Or.inr ⟨a :: b, (ih (a :: b)).mpr ⟨by simp, hpre'⟩, rfl⟩

theorem neededDirs_cons (src : Path) (exclude : List Path) (e : Entry) (l : List Entry) :
    neededDirs src exclude (e :: l)
      = (if keptB src exclude e = true then
          (if e.1 = 'd' then nonNilPrefixes (relpath e.2 src)
            else nonNilPrefixes (relpath e.2 src).dropLast)
         else []) ++ neededDirs src exclude l := by
  by_cases h : keptB src exclude e = true
  · rw [neededDirs, List.filter_cons_of_pos h, List.flatMap_cons, if_pos h]
    rfl
  · rw [neededDirs, List.filter_cons_of_neg (by simpa using h), if_neg h]
    rfl

theorem keptFileRels_cons (src : Path) (exclude : List Path) (e : Entry) (l : List Entry) :
    keptFileRels src exclude (e :: l)
      = (if keptB src exclude e = true ∧ e.1 = 'f' then [relpath e.2 src] else [])
        ++ keptFileRels src exclude l := by
  by_cases h1 : keptB src exclude e = true
  · by_cases h2 : e.1 = 'f'
    · rw [keptFileRels, List.filter_cons_of_pos h1,
        List.filter_cons_of_pos (by simpa using h2), List.map_cons, if_pos ⟨h1, h2⟩]
      rfl
    · rw [keptFileRels, List.filter_cons_of_pos h1,
        List.filter_cons_of_neg (by simpa using h2), if_neg (by simp [h2])]
      rfl
  · rw [keptFileRels, List.filter_cons_of_neg (by simpa using h1),
      if_neg (by simp [h1])]
    rfl

/-- Any path below the source region is prefix-incompatible with the
destination region when source and destination are separated. -/
theorem srcpath_sep {src dst p : Path} (sep1 : ¬ src <+: dst) (sep2 : ¬ dst <+: src)
    (hp : src <+: p) : ¬ dst <+: p ∧ ¬ p <+: dst := by
  obtain ⟨r, rfl⟩ := hp
  constructor
  · intro hh
    have h2 := sep_extend sep2 sep1 ([] : Path) r
    rw [List.append_nil] at h2
    exact h2 hh
  · intro hh
    have h2 := sep_extend sep1 sep2 r ([] : Path)
    rw [List.append_nil] at h2
    exact h2 hh

/-- The exact effect of the copy loop under the destination, for a list of
walk entries with duplicate-free paths below a source separated from the
destination: a directory exists at a dst-relative path afterwards exactly when
it existed before or the path is needed by a kept entry; a file exists exactly
where one existed before or a kept file entry targets it; untouched relative
paths keep their file content; and each kept file entry's target receives
exactly the source file's content. -/
theorem foldl_fsStep_effects (src dst : Path) (exclude : List Path) :
    ∀ (l : List Entry) (g : FSTree),
      (∀ e ∈ l, src <+: e.2 ∧ src.length < e.2.length) →
      (∀ e ∈ l, e.1 = 'd' ∨ e.1 = 'f') →
      ((l.map Prod.snd).Nodup) →
      (∀ e ∈ l, e.1 = 'f' → (g.findFile? e.2).isSome = true) →
      (¬ src <+: dst) → (¬ dst <+: src) →
      ((∀ q : Path, q ≠ [] →
          ((l.foldl (fsStep src dst exclude) g).isDir (dst ++ q) = true
            ↔ g.isDir (dst ++ q) = true ∨ q ∈ neededDirs src exclude l))
        ∧ (∀ q : Path,
            (((l.foldl (fsStep src dst exclude) g).findFile? (dst ++ q)).isSome = true
              ↔ (g.findFile? (dst ++ q)).isSome = true ∨ q ∈ keptFileRels src exclude l))
        ∧ (∀ q : Path, q ∉ l.map (fun e => relpath e.2 src) →
            (l.foldl (fsStep src dst exclude) g).findFile? (dst ++ q)
              = g.findFile? (dst ++ q))
        ∧ (∀ e ∈ l, keptB src exclude e = true → e.1 = 'f' →
            (l.foldl (fsStep src dst exclude) g).findFile? (dst ++ relpath e.2 src)
              = g.findFile? e.2)) := by
  intro l
  induction l with
  | nil =>
    intro g _ _ _ _ _ _
    refine ⟨?_, ?_, ?_, ?_⟩
    · intro q hq
      simp [neededDirs]
    · intro q
      simp [keptFileRels]
    · intro q _
      rfl
    · intro e he
      simp at he
  | cons e rest ih =>
    intro g hshape hkind hnd hread sep1 sep2
    have hshape0 := hshape e (by simp)
    have hrel0 : relpath e.2 src ≠ [] := relpath_ne_nil hshape0.2
    have hndtail : (rest.map Prod.snd).Nodup := by
      rw [List.map_cons, List.nodup_cons] at hnd
      exact hnd.2
    have hheadnot : e.2 ∉ rest.map Prod.snd := by
      rw [List.map_cons, List.nodup_cons] at hnd
      exact hnd.1
    have hshapet : ∀ e' ∈ rest, src <+: e'.2 ∧ src.length < e'.2.length :=
      fun e' he' => hshape e' (by simp [he'])
    have hkindt : ∀ e' ∈ rest, e'.1 = 'd' ∨ e'.1 = 'f' :=
      fun e' he' => hkind e' (by simp [he'])
    have hstep_pres : ∀ x : Path, src <+: x →
        ((fsStep src dst exclude g e).findDir? x = g.findDir? x
          ∧ (fsStep src dst exclude g e).findFile? x = g.findFile? x) := by
      intro x hx
      obtain ⟨hx1, hx2⟩ := srcpath_sep sep1 sep2 hx
      exact @fsStep_pres src dst exclude e hrel0 x hx1 hx2 g
    have hreadt : ∀ e' ∈ rest, e'.1 = 'f' →
        ((fsStep src dst exclude g e).findFile? e'.2).isSome = true := by
      intro e' he' hf
      rw [(hstep_pres e'.2 (hshapet e' he').1).2]
      exact hread e' (by simp [he']) hf
    have hreltail_ne : relpath e.2 src ∉ rest.map (fun e' => relpath e'.2 src) := by
      intro hmem
      obtain ⟨e', he', heq⟩ := List.mem_map.mp hmem
      have h1 : e'.2 = src ++ relpath e'.2 src := eq_append_relpath (hshapet e' he').1
      have h2 : e.2 = src ++ relpath e.2 src := eq_append_relpath hshape0.1
      have : e.2 = e'.2 := by rw [h1, h2, heq]
      exact hheadnot (this ▸ List.mem_map.mpr ⟨e', he', rfl⟩)
    obtain ⟨ihi, ihii, ihiii, ihiv⟩ :=
      ih (fsStep src dst exclude g e) hshapet hkindt hndtail hreadt sep1 sep2
    by_cases hkept : keptB src exclude e = true
    · have hmem : relpath e.2 src ∉ exclude := by
        simpa [keptB] using hkept
      by_cases hd : e.1 = 'd'
      · -- a kept directory entry: one mkdirs
        have hstep : fsStep src dst exclude g e
            = g.mkdirs (dst ++ relpath e.2 src) := by
          simp [fsStep, copyStep, hmem, hd]
        have hnf : ¬ (keptB src exclude e = true ∧ e.1 = 'f') := by
          rintro ⟨_, hf⟩
          rw [hd] at hf
          exact absurd hf (by decide)
        refine ⟨?_, ?_, ?_, ?_⟩
        · intro q hq
          rw [List.foldl_cons, ihi q hq, hstep, isDir_mkdirs,
            List.prefix_append_right_inj, neededDirs_cons, if_pos hkept, if_pos hd,
            List.mem_append, mem_nonNilPrefixes]
          constructor
          · rintro ((h | h) | h)
            · exact Or.inl h
            · exact Or.inr (Or.inl ⟨hq, h⟩)
            · exact Or.inr (Or.inr h)
          · rintro (h | (⟨_, h⟩ | h))
            · exact Or.inl (Or.inl h)
            · exact Or.inl (Or.inr h)
            · exact Or.inr h
        · intro q
          rw [List.foldl_cons, ihii q, hstep, findFile?_mkdirs, keptFileRels_cons,
            if_neg hnf]
          simp
        · intro q hq
          rw [List.map_cons, List.mem_cons] at hq
          push_neg at hq
          rw [List.foldl_cons, ihiii q hq.2, hstep, findFile?_mkdirs]
        · intro e' he' hk hf
          rcases List.mem_cons.mp he' with rfl | hmem'
          · rw [hd] at hf
            exact absurd hf (by decide)
          · rw [List.foldl_cons, ihiv e' hmem' hk hf]
            exact (hstep_pres e'.2 (hshapet e' hmem').1).2
      · -- a kept file entry: mkdirs of the parent, then the write
        have hf : e.1 = 'f' := (hkind e (by simp)).resolve_left hd
        have hstep : fsStep src dst exclude g e
            = (g.mkdirs (dst ++ relpath e.2 src).dropLast).writeFile
                (dst ++ relpath e.2 src) ((g.findFile? e.2).getD "") := by
          simp [fsStep, copyStep, hmem, hd]
        obtain ⟨v, hv⟩ : ∃ v, g.findFile? e.2 = some v :=
          Option.isSome_iff_exists.mp (hread e (by simp) hf)
        have hTne : (dst ++ relpath e.2 src) ≠ [] := by
          intro hh
          exact hrel0 (List.append_eq_nil.mp hh).2
        have hparent : (g.mkdirs (dst ++ relpath e.2 src).dropLast).isDir
            (dst ++ relpath e.2 src).dropLast = true :=
          (isDir_mkdirs g _ _).mpr (Or.inr (List.prefix_refl _))
        have hself : (fsStep src dst exclude g e).findFile? (dst ++ relpath e.2 src)
            = some v := by
          rw [hstep, findFile?_writeFile_self hTne hparent, hv]
          rfl
        have hstep_file_ne : ∀ q : Path, q ≠ relpath e.2 src →
            (fsStep src dst exclude g e).findFile? (dst ++ q)
              = g.findFile? (dst ++ q) := by
          intro q hq
          have hne : dst ++ q ≠ dst ++ relpath e.2 src := by
            intro hh
            exact hq (List.append_cancel_left hh)
          rw [hstep, findFile?_writeFile_ne _ hne, findFile?_mkdirs]
        refine ⟨?_, ?_, ?_, ?_⟩
        · intro q hq
          rw [List.foldl_cons, ihi q hq, hstep, isDir_writeFile,
            List.dropLast_append_of_ne_nil _ hrel0, isDir_mkdirs,
            List.prefix_append_right_inj, neededDirs_cons, if_pos hkept, if_neg hd,
            List.mem_append, mem_nonNilPrefixes]
          constructor
          · rintro ((h | h) | h)
            · exact Or.inl h
            · exact Or.inr (Or.inl ⟨hq, h⟩)
            · exact Or.inr (Or.inr h)
          · rintro (h | (⟨_, h⟩ | h))
            · exact Or.inl (Or.inl h)
            · exact Or.inl (Or.inr h)
            · exact Or.inr h
        · intro q
          rw [List.foldl_cons, keptFileRels_cons, if_pos ⟨hkept, hf⟩]
          by_cases hqr : q = relpath e.2 src
          · subst hqr
            have hL : ((rest.foldl (fsStep src dst exclude)
                (fsStep src dst exclude g e)).findFile?
                  (dst ++ relpath e.2 src)).isSome = true :=
              (ihii (relpath e.2 src)).mpr (Or.inl (by rw [hself]; rfl))
            exact iff_of_true hL (Or.inr (by simp))
          · rw [ihii q, hstep_file_ne q hqr]
            simp only [List.cons_append, List.nil_append, List.mem_cons]
            constructor
            · rintro (h | h)
              · exact Or.inl h
              · exact Or.inr (Or.inr h)
            · rintro (h | (h | h))
              · exact Or.inl h
              · exact absurd h hqr
              · exact Or.inr h
        · intro q hq
          rw [List.map_cons, List.mem_cons] at hq
          push_neg at hq
          rw [List.foldl_cons, ihiii q hq.2, hstep_file_ne q hq.1]
        · intro e' he' hk hfk
          rcases List.mem_cons.mp he' with rfl | hmem'
          · rw [List.foldl_cons, ihiii (relpath e'.2 src) hreltail_ne, hself, hv]
          · rw [List.foldl_cons, ihiv e' hmem' hk hfk]
            exact (hstep_pres e'.2 (hshapet e' hmem').1).2
    · -- an excluded entry: nothing happens
      have hmem : relpath e.2 src ∈ exclude := by
        simpa [keptB] using hkept
      have hnf : ¬ (keptB src exclude e = true ∧ e.1 = 'f') := fun hh => hkept hh.1
      have hstep : fsStep src dst exclude g e = g := fsStep_skip hmem g
      refine ⟨?_, ?_, ?_, ?_⟩
      · intro q hq
        rw [List.foldl_cons, ihi q hq, hstep, neededDirs_cons, if_neg hkept,
          List.nil_append]
      · intro q
        rw [List.foldl_cons, ihii q, hstep, keptFileRels_cons, if_neg hnf,
          List.nil_append]
      · intro q hq
        rw [List.map_cons, List.mem_cons] at hq
        push_neg at hq
        rw [List.foldl_cons, ihiii q hq.2, hstep]
      · intro e' he' hk hfk
        rcases List.mem_cons.mp he' with rfl | hmem'
        · exact absurd hk hkept
        · rw [List.foldl_cons, ihiv e' hmem' hk hfk, hstep]

/-- On a well-formed source, every file entry yielded by the walk can be read
from the surrounding filesystem. -/
theorem iglT_file_readable {fs t : FSTree} {src : Path} (hwf : t.wf = true)
    (h : fs.findDir? src = some t) :
    ∀ e ∈ iglT src t, e.1 = 'f' → (fs.findFile? e.2).isSome = true := by
  intro e he hf
  obtain ⟨r, hrne, he2, hcase⟩ := (mem_iglT_iff t hwf src e).mp he
  rcases hcase with ⟨hd, _⟩ | ⟨_, hsome⟩
  · rw [hf] at hd
    exact absurd hd (by decide)
  · rw [he2, findFile?_append fs src r hrne, h, Option.some_bind]
    exact hsome

/-- The copy fold never loses the destination root directory. -/
theorem foldl_fsStep_isDir_dst (src dst : Path) (exclude : List Path) :
    ∀ (l : List Entry) (g : FSTree), g.isDir dst = true →
      (l.foldl (fsStep src dst exclude) g).isDir dst = true := by
  intro l
  induction l with
  | nil =>
    intro g hg
    exact hg
  | cons e rest ih =>
    intro g hg
    rw [List.foldl_cons]
    refine ih _ ?_
    by_cases hx : relpath e.2 src ∈ exclude
    · rw [fsStep_skip hx]
      exact hg
    · by_cases hk : e.1 = 'd'
      · have hstep : fsStep src dst exclude g e
            = g.mkdirs (dst ++ relpath e.2 src) := by
          simp [fsStep, copyStep, hx, hk]
        rw [hstep]
        exact (isDir_mkdirs _ _ _).mpr (Or.inl hg)
      · have hstep : fsStep src dst exclude g e
            = (g.mkdirs (dst ++ relpath e.2 src).dropLast).writeFile
                (dst ++ relpath e.2 src) ((g.findFile? e.2).getD "") := by
          simp [fsStep, copyStep, hx, hk]
        rw [hstep, isDir_writeFile]
        exact (isDir_mkdirs _ _ _).mpr (Or.inl hg)

/-! ### Claim C4 (amended): the record and on-disk effect of copy_tree -/

/-- C4 amended: on a well-formed source separated from an existing, fresh
destination directory (empty of entries of its own, so no copy target can
collide with pre-existing destination content — the domain on which the tree
model is faithful to `shutil.copy2` and `os.makedirs`), `copy_tree` returns as
its record exactly the non-excluded walk entries retargeted under `dst`, in
visitation order; on disk it creates exactly the directories needed by the
kept entries (each kept directory's relative path and every intermediate
parent, recorded or not), writes a file exactly at each kept file entry's
target, gives each such target the source file's content, keeps the
destination root a directory, and changes nothing outside the destination
region. -/
theorem claim_C4_amended (fs t : FSTree) (src dst : Path) (exclude : List Path)
    (hwf : t.wf = true) (h : fs.findDir? src = some t)
    (sep1 : ¬ src <+: dst) (sep2 : ¬ dst <+: src)
    (hdst : fs.isDir dst = true)
    (hfd : ∀ q : Path, q ≠ [] → fs.isDir (dst ++ q) = false)
    (hff : ∀ q : Path, fs.findFile? (dst ++ q) = none) :
    ∃ rec fs2, copy_tree fs src dst exclude = some (rec, fs2)
      ∧ rec = ((iglT src t).filter (keptB src exclude)).map (retarget src dst)
      ∧ (∀ q : Path, q ≠ [] →
          (fs2.isDir (dst ++ q) = true ↔ q ∈ neededDirs src exclude (iglT src t)))
      ∧ (∀ q : Path,
          ((fs2.findFile? (dst ++ q)).isSome = true
            ↔ q ∈ keptFileRels src exclude (iglT src t)))
      ∧ (∀ e ∈ iglT src t, keptB src exclude e = true → e.1 = 'f' →
          fs2.findFile? (dst ++ relpath e.2 src) = fs.findFile? e.2)
      ∧ fs2.isDir dst = true
      ∧ (∀ x : Path, ¬ dst <+: x → ¬ x <+: dst →
          fs2.findDir? x = fs.findDir? x ∧ fs2.findFile? x = fs.findFile? x) := by
  have hread := iglT_file_readable hwf h
  have heff := foldl_fsStep_effects src dst exclude (iglT src t) fs
    (iglT_shape t src) (iglT_kind t src) (iglT_paths_nodup t hwf src) hread sep1 sep2
  rw [copy_tree_eq dst exclude h]
  refine ⟨_, _, rfl, rfl, ?_, ?_, heff.2.2.2,
    foldl_fsStep_isDir_dst src dst exclude (iglT src t) fs hdst, ?_⟩
  · intro q hq
    rw [heff.1 q hq, hfd q hq]
    simp
  · intro q
    rw [heff.2.1 q, hff q]
    simp
  · intro x hx1 hx2
    exact foldl_fsStep_pres src dst exclude (iglT src t) fs x
      (fun e he => relpath_ne_nil (iglT_shape t src e he).2) hx1 hx2

/-- Witness for C4 amended: copying s into the existing empty directory d
while excluding the directory a records only the kept file, creates d/a as a
needed intermediate, and copies a/x with its content. -/
theorem claim_C4_amended_witness :
    (fxExcludeSub.wf = true
      ∧ fxExclude2.findDir? ["s"] = some fxExcludeSub
      ∧ ¬ (["s"] : Path) <+: ["d"] ∧ ¬ (["d"] : Path) <+: ["s"]
      ∧ fxExclude2.isDir ["d"] = true
      ∧ (∀ q : Path, q ≠ [] → fxExclude2.isDir (["d"] ++ q) = false)
      ∧ (∀ q : Path, fxExclude2.findFile? (["d"] ++ q) = none))
    ∧ (∃ rec fs2, copy_tree fxExclude2 ["s"] ["d"] [["a"]] = some (rec, fs2)
        ∧ rec = ((iglT ["s"] fxExcludeSub).filter (keptB ["s"] [["a"]])).map
            (retarget ["s"] ["d"])
        ∧ (∀ q : Path, q ≠ [] →
            (fs2.isDir (["d"] ++ q) = true
              ↔ q ∈ neededDirs ["s"] [["a"]] (iglT ["s"] fxExcludeSub)))
        ∧ (∀ q : Path,
            ((fs2.findFile? (["d"] ++ q)).isSome = true
              ↔ q ∈ keptFileRels ["s"] [["a"]] (iglT ["s"] fxExcludeSub)))
        ∧ (∀ e ∈ iglT ["s"] fxExcludeSub,
            keptB ["s"] [["a"]] e = true → e.1 = 'f' →
              fs2.findFile? (["d"] ++ relpath e.2 ["s"]) = fxExclude2.findFile? e.2)
        ∧ fs2.isDir ["d"] = true
        ∧ (∀ x : Path, ¬ (["d"] : Path) <+: x → ¬ x <+: ["d"] →
            fs2.findDir? x = fxExclude2.findDir? x
              ∧ fs2.findFile? x = fxExclude2.findFile? x)) :=
  ⟨⟨rfl, rfl, by decide, by decide, rfl,
      fun q hq => by rw [FSTree.isDir, findDir?_below_empty (show fxExclude2.findDir? ["d"] = some (.mk [] []) from rfl) hq]; rfl,
      fun q => by
        cases q with
        | nil => rfl
        | cons a b => exact findFile?_below_empty (show fxExclude2.findDir? ["d"] = some (.mk [] []) from rfl) (List.cons_ne_nil a b)⟩,
    claim_C4_amended fxExclude2 fxExcludeSub ["s"] ["d"] [["a"]] rfl rfl
      (by decide) (by decide) rfl
      (fun q hq => by rw [FSTree.isDir, findDir?_below_empty (show fxExclude2.findDir? ["d"] = some (.mk [] []) from rfl) hq]; rfl)
      (fun q => by
        cases q with
        | nil => rfl
        | cons a b => exact findFile?_below_empty (show fxExclude2.findDir? ["d"] = some (.mk [] []) from rfl) (List.cons_ne_nil a b))⟩

/-! ### Claim C10: descendants of an excluded directory -/

/-- C10: when a directory's src-relative path is excluded but a descendant
file's is not, `copy_tree` into an existing, fresh destination directory
(empty of entries of its own, so no copy target can collide with pre-existing
destination content — the domain on which the tree model is faithful to
`shutil.copy2` and `os.makedirs`) still copies the descendant file (with the
source's content), the excluded directory is created on disk as a needed
intermediate parent, and no record entry targets the excluded directory's
destination path. -/
theorem claim_C10_excluded_dir_descendants
    (fs t : FSTree) (src dst : Path) (exclude : List Path) (ed ef : Entry)
    (hwf : t.wf = true) (h : fs.findDir? src = some t)
    (sep1 : ¬ src <+: dst) (sep2 : ¬ dst <+: src)
    (hdst : fs.isDir dst = true)
    (hfd : ∀ q : Path, q ≠ [] → fs.isDir (dst ++ q) = false)
    (hff : ∀ q : Path, fs.findFile? (dst ++ q) = none)
    (hed : ed ∈ iglT src t) (hexc : relpath ed.2 src ∈ exclude)
    (hef : ef ∈ iglT src t) (hefk : ef.1 = 'f')
    (hkept : relpath ef.2 src ∉ exclude)
    (hanc : ed.2 <+: ef.2) (hne : ed.2 ≠ ef.2) :
    ∃ rec fs2, copy_tree fs src dst exclude = some (rec, fs2)
      ∧ fs2.findFile? (dst ++ relpath ef.2 src) = fs.findFile? ef.2
      ∧ (fs.findFile? ef.2).isSome = true
      ∧ fs.findFile? (dst ++ relpath ef.2 src) = none
      ∧ fs2.isDir dst = true
      ∧ fs2.isDir (dst ++ relpath ed.2 src) = true
      ∧ fs.isDir (dst ++ relpath ed.2 src) = false
      ∧ (∀ k : Char, (k, dst ++ relpath ed.2 src) ∉ rec) := by
  have hread := iglT_file_readable hwf h
  have heffects := foldl_fsStep_effects src dst exclude (iglT src t) fs
    (iglT_shape t src) (iglT_kind t src) (iglT_paths_nodup t hwf src) hread sep1 sep2
  have hkb : keptB src exclude ef = true := by simp [keptB, hkept]
  have hrelne : relpath ed.2 src ≠ [] :=
    relpath_ne_nil (iglT_shape t src ed hed).2
  have hsed := (iglT_shape t src ed hed).1
  have hsef := (iglT_shape t src ef hef).1
  have hab : relpath ed.2 src <+: relpath ef.2 src := by
    have hpre := hanc
    rw [eq_append_relpath hsed, eq_append_relpath hsef] at hpre
    exact (List.prefix_append_right_inj src).mp hpre
  obtain ⟨r, hr⟩ := hab
  have hrne2 : r ≠ [] := by
    intro hh
    apply hne
    rw [eq_append_relpath hsed, eq_append_relpath hsef, ← hr, hh, List.append_nil]
  have hmemneed : relpath ed.2 src ∈ neededDirs src exclude (iglT src t) := by
    simp only [neededDirs]
    refine List.mem_flatMap.mpr ⟨ef, List.mem_filter.mpr ⟨hef, hkb⟩, ?_⟩
    rw [if_neg (show ¬ ef.1 = 'd' from by rw [hefk]; decide)]
    refine (mem_nonNilPrefixes _ _).mpr ⟨hrelne, r.dropLast, ?_⟩
    rw [← hr, List.dropLast_append_of_ne_nil _ hrne2]
  rw [copy_tree_eq dst exclude h]
  refine ⟨_, _, rfl, heffects.2.2.2 ef hef hkb hefk, hread ef hef hefk,
    hff _,
    foldl_fsStep_isDir_dst src dst exclude (iglT src t) fs hdst,
    (heffects.1 (relpath ed.2 src) hrelne).mpr (Or.inr hmemneed),
    hfd _ hrelne, ?_⟩
  intro k hk
  obtain ⟨e, he, heq⟩ := List.mem_map.mp hk
  have hkbe : keptB src exclude e = true := (List.mem_filter.mp he).2
  have hsnd : dst ++ relpath e.2 src = dst ++ relpath ed.2 src :=
    congrArg Prod.snd heq
  have hrel_eq : relpath e.2 src = relpath ed.2 src := List.append_cancel_left hsnd
  rw [keptB, hrel_eq] at hkbe
  simp [hexc] at hkbe

/-- Witness for C10: excluding the directory a of fxExclude2 while its child
file a/x is kept, copying into the existing empty directory d. -/
theorem claim_C10_witness :
    (fxExcludeSub.wf = true
      ∧ fxExclude2.findDir? ["s"] = some fxExcludeSub
      ∧ ¬ (["s"] : Path) <+: ["d"] ∧ ¬ (["d"] : Path) <+: ["s"]
      ∧ fxExclude2.isDir ["d"] = true
      ∧ (∀ q : Path, q ≠ [] → fxExclude2.isDir (["d"] ++ q) = false)
      ∧ (∀ q : Path, fxExclude2.findFile? (["d"] ++ q) = none)
      ∧ ('d', (["s", "a"] : Path)) ∈ iglT ["s"] fxExcludeSub
      ∧ relpath (["s", "a"] : Path) ["s"] ∈ [(["a"] : Path)]
      ∧ ('f', (["s", "a", "x"] : Path)) ∈ iglT ["s"] fxExcludeSub
      ∧ relpath (["s", "a", "x"] : Path) ["s"] ∉ [(["a"] : Path)]
      ∧ (["s", "a"] : Path) <+: ["s", "a", "x"]
      ∧ (["s", "a"] : Path) ≠ ["s", "a", "x"])
    ∧ (∃ rec fs2, copy_tree fxExclude2 ["s"] ["d"] [["a"]] = some (rec, fs2)
        ∧ fs2.findFile? (["d"] ++ relpath (["s", "a", "x"] : Path) ["s"])
            = fxExclude2.findFile? ["s", "a", "x"]
        ∧ (fxExclude2.findFile? ["s", "a", "x"]).isSome = true
        ∧ fxExclude2.findFile? (["d"] ++ relpath (["s", "a", "x"] : Path) ["s"])
            = none
        ∧ fs2.isDir ["d"] = true
        ∧ fs2.isDir (["d"] ++ relpath (["s", "a"] : Path) ["s"]) = true
        ∧ fxExclude2.isDir (["d"] ++ relpath (["s", "a"] : Path) ["s"]) = false
        ∧ (∀ k : Char,
            (k, ["d"] ++ relpath (["s", "a"] : Path) ["s"]) ∉ rec)) :=
  ⟨⟨rfl, rfl, by decide, by decide, rfl,
      fun q hq => by rw [FSTree.isDir, findDir?_below_empty (show fxExclude2.findDir? ["d"] = some (.mk [] []) from rfl) hq]; rfl,
      fun q => by
        cases q with
        | nil => rfl
        | cons a b => exact findFile?_below_empty (show fxExclude2.findDir? ["d"] = some (.mk [] []) from rfl) (List.cons_ne_nil a b),
      by decide, by decide, by decide, by decide, by decide, by decide⟩,
    claim_C10_excluded_dir_descendants fxExclude2 fxExcludeSub ["s"] ["d"] [["a"]]
      ('d', ["s", "a"]) ('f', ["s", "a", "x"]) rfl rfl (by decide) (by decide)
      rfl
      (fun q hq => by rw [FSTree.isDir, findDir?_below_empty (show fxExclude2.findDir? ["d"] = some (.mk [] []) from rfl) hq]; rfl)
      (fun q => by
        cases q with
        | nil => rfl
        | cons a b => exact findFile?_below_empty (show fxExclude2.findDir? ["d"] = some (.mk [] []) from rfl) (List.cons_ne_nil a b))
      (by decide) (by decide) (by decide) rfl (by decide) (by decide) (by decide)⟩

/-! ### Claim C9 (amended): the entry set produced by extract_zip_stream -/

theorem strippedDirs_cons (n : Nat) (e : ZipEntry) (l : List ZipEntry) :
    strippedDirs (e :: l) n
      = (if e.path.drop n = [] then []
         else if e.isDir then nonNilPrefixes (e.path.drop n)
         else nonNilPrefixes (e.path.drop n).dropLast) ++ strippedDirs l n := by
  simp only [strippedDirs, List.flatMap_cons]

theorem strippedFiles_cons (n : Nat) (e : ZipEntry) (l : List ZipEntry) :
    strippedFiles (e :: l) n
      = (if (!e.isDir && !decide (e.path.drop n = [])) = true
          then [e.path.drop n] else [])
        ++ strippedFiles l n := by
  by_cases hc : e.isDir = false ∧ n < e.path.length
  · simp [strippedFiles, List.filter_cons, hc]
  · simp [strippedFiles, List.filter_cons, hc]

/-- The exact effect of the extraction fold from any starting tree: a
directory exists afterwards exactly when it existed before or is needed by
some entry, and a file exists exactly where one existed before or a stripped
file entry targets it. -/
theorem foldl_zipStep_effects (n : Nat) :
    ∀ (entries : List ZipEntry) (g : FSTree),
      (∀ q : Path, q ≠ [] →
          ((entries.foldl (zipStep n) g).isDir q = true
            ↔ g.isDir q = true ∨ q ∈ strippedDirs entries n))
        ∧ (∀ q : Path,
            (((entries.foldl (zipStep n) g).findFile? q).isSome = true
              ↔ (g.findFile? q).isSome = true ∨ q ∈ strippedFiles entries n)) := by
  intro entries
  induction entries with
  | nil =>
    intro g
    constructor
    · intro q hq
      simp [strippedDirs]
    · intro q
      simp [strippedFiles]
  | cons e rest ih =>
    intro g
    by_cases hp : e.path.drop n = []
    · have hstep : zipStep n g e = g := by
        simp [zipStep, hp]
      constructor
      · intro q hq
        rw [List.foldl_cons, hstep, (ih g).1 q hq, strippedDirs_cons, if_pos hp,
          List.nil_append]
      · intro q
        rw [List.foldl_cons, hstep, (ih g).2 q, strippedFiles_cons,
          if_neg (by simp [hp]), List.nil_append]
    · by_cases hd : e.isDir = true
      · have hstep : zipStep n g e = g.mkdirs (e.path.drop n) := by
          simp [zipStep, hp, hd]
        constructor
        · intro q hq
          rw [List.foldl_cons, hstep, (ih _).1 q hq, isDir_mkdirs,
            strippedDirs_cons, if_neg hp, if_pos hd, List.mem_append,
            mem_nonNilPrefixes]
          constructor
          · rintro ((h | h) | h)
            · exact Or.inl h
            · exact Or.inr (Or.inl ⟨hq, h⟩)
            · exact Or.inr (Or.inr h)
          · rintro (h | (⟨_, h⟩ | h))
            · exact Or.inl (Or.inl h)
            · exact Or.inl (Or.inr h)
            · exact Or.inr h
        · intro q
          rw [List.foldl_cons, hstep, (ih _).2 q, findFile?_mkdirs,
            strippedFiles_cons, if_neg (by simp [hd]), List.nil_append]
      · have hdf : e.isDir = false := by
          cases hh : e.isDir
          · rfl
          · exact absurd hh hd
        have hstep : zipStep n g e
            = (g.mkdirs (e.path.drop n).dropLast).writeFile (e.path.drop n)
                e.content := by
          simp [zipStep, hp, hdf]
        have hparent : (g.mkdirs (e.path.drop n).dropLast).isDir
            (e.path.drop n).dropLast = true :=
          (isDir_mkdirs g _ _).mpr (Or.inr (List.prefix_refl _))
        have hself : (zipStep n g e).findFile? (e.path.drop n) = some e.content := by
          rw [hstep]
          exact findFile?_writeFile_self hp hparent e.content
        constructor
        · intro q hq
          rw [List.foldl_cons, hstep, (ih _).1 q hq, isDir_writeFile, isDir_mkdirs,
            strippedDirs_cons, if_neg hp, if_neg (by simp [hdf]), List.mem_append,
            mem_nonNilPrefixes]
          constructor
          · rintro ((h | h) | h)
            · exact Or.inl h
            · exact Or.inr (Or.inl ⟨hq, h⟩)
            · exact Or.inr (Or.inr h)
          · rintro (h | (⟨_, h⟩ | h))
            · exact Or.inl (Or.inl h)
            · exact Or.inl (Or.inr h)
            · exact Or.inr h
        · intro q
          rw [List.foldl_cons, strippedFiles_cons, if_pos (by simp [hdf, hp])]
          by_cases hqr : q = e.path.drop n
          · subst hqr
            have hL : ((rest.foldl (zipStep n) (zipStep n g e)).findFile?
                (e.path.drop n)).isSome = true :=
              ((ih (zipStep n g e)).2 (e.path.drop n)).mpr
                (Or.inl (by rw [hself]; rfl))
            exact iff_of_true hL (Or.inr (by simp))
          · have hstep_ne : (zipStep n g e).findFile? q = g.findFile? q := by
              rw [hstep, findFile?_writeFile_ne _ hqr, findFile?_mkdirs]
            rw [(ih _).2 q, hstep_ne]
            simp only [List.cons_append, List.nil_append, List.mem_cons]
            constructor
            · rintro (h | h)
              · exact Or.inl h
              · exact Or.inr (Or.inr h)
            · rintro (h | (h | h))
              · exact Or.inl h
              · exact absurd h hqr
              · exact Or.inr h

/-- C9 amended: the destination entry set of `extract_zip_stream` with
`ignore_root_dirs = N` is exactly the archive's stripped file paths as files,
together with, as directories, every nonempty prefix of a stripped directory
path or of a stripped file path's parent (the entries whose stripped path is
empty omitted) — the stripped paths themselves plus the intermediate parent
directories materialized for them. -/
theorem claim_C9_amended (entries : List ZipEntry) (n : Nat) :
    (∀ q : Path, q ≠ [] →
        ((extract_zip_stream entries n).isDir q = true ↔ q ∈ strippedDirs entries n))
      ∧ (∀ q : Path,
          (((extract_zip_stream entries n).findFile? q).isSome = true
            ↔ q ∈ strippedFiles entries n)) := by
  have h := foldl_zipStep_effects n entries FSTree.empty
  constructor
  · intro q hq
    rw [show extract_zip_stream entries n
        = entries.foldl (zipStep n) FSTree.empty from rfl, h.1 q hq]
    simp [isDir_empty_iff, hq]
  · intro q
    rw [show extract_zip_stream entries n
        = entries.foldl (zipStep n) FSTree.empty from rfl, h.2 q, findFile?_empty]
    simp

/-- Witness for C9 amended on a one-file archive with one root component
stripped. -/
theorem claim_C9_amended_witness :
    ((["a"] : Path) ≠ []
      ∧ ((extract_zip_stream [⟨false, ["r", "a", "b"], "c"⟩] 1).isDir ["a"] = true
          ↔ (["a"] : Path) ∈ strippedDirs [⟨false, ["r", "a", "b"], "c"⟩] 1))
    ∧ (((extract_zip_stream [⟨false, ["r", "a", "b"], "c"⟩] 1).findFile?
          ["a", "b"]).isSome = true
        ↔ (["a", "b"] : Path) ∈ strippedFiles [⟨false, ["r", "a", "b"], "c"⟩] 1) :=
  ⟨⟨by decide,
      (claim_C9_amended [⟨false, ["r", "a", "b"], "c"⟩] 1).1 ["a"] (by decide)⟩,
    (claim_C9_amended [⟨false, ["r", "a", "b"], "c"⟩] 1).2 ["a", "b"]⟩

/-! ### Claim C3 (amended): move_tree into a fresh destination -/

/-- With no exclusions, the directories the copy loop needs for a well-formed
source are exactly the source's own directories. -/
theorem neededDirs_all_iff {t : FSTree} (hwf : t.wf = true) (src : Path)
    (q : Path) (hq : q ≠ []) :
    q ∈ neededDirs src [] (iglT src t) ↔ t.isDir q = true := by
  constructor
  · intro hmem
    simp only [neededDirs] at hmem
    obtain ⟨e, hef, hqin⟩ := List.mem_flatMap.mp hmem
    have he : e ∈ iglT src t := (List.mem_filter.mp hef).1
    obtain ⟨r, hrne, he2, hcase⟩ := (mem_iglT_iff t hwf src e).mp he
    have hrel : relpath e.2 src = r := by rw [he2, relpath_append]
    rcases hcase with ⟨hd, hsome⟩ | ⟨hf, hsome⟩
    · rw [if_pos hd, hrel] at hqin
      obtain ⟨hqne, s, hs⟩ := (mem_nonNilPrefixes q r).mp hqin
      rw [← hs, findDir?_append] at hsome
      rw [FSTree.isDir]
      cases ho : t.findDir? q with
      | none =>
        rw [ho] at hsome
        simp at hsome
      | some u => rfl
    · rw [if_neg (show ¬ e.1 = 'd' from by rw [hf]; decide), hrel] at hqin
      obtain ⟨hqne, s, hs⟩ := (mem_nonNilPrefixes q r.dropLast).mp hqin
      have hr2 : r = q ++ (s ++ [r.getLast hrne]) := by
        rw [← List.append_assoc, hs, List.dropLast_append_getLast hrne]
      rw [hr2, findFile?_append t q _ (by simp)] at hsome
      rw [FSTree.isDir]
      cases ho : t.findDir? q with
      | none =>
        rw [ho] at hsome
        simp at hsome
      | some u => rfl
  · intro hdir
    have hreach : reachable src t ('d', src ++ q) := ⟨q, hq, rfl, Or.inl ⟨rfl, hdir⟩⟩
    have hmem : ('d', src ++ q) ∈ iglT src t := (mem_iglT_iff t hwf src _).mpr hreach
    simp only [neededDirs]
    refine List.mem_flatMap.mpr
      ⟨('d', src ++ q), List.mem_filter.mpr ⟨hmem, keptB_nil src _⟩, ?_⟩
    rw [if_pos (show (('d', src ++ q) : Entry).1 = 'd' from rfl)]
    show q ∈ nonNilPrefixes (relpath (src ++ q) src)
    rw [relpath_append]
    exact (mem_nonNilPrefixes q q).mpr ⟨hq, List.prefix_refl q⟩

/-- With no exclusions, the files the copy loop writes for a well-formed
source are exactly the source's own files. -/
theorem keptFileRels_all_iff {t : FSTree} (hwf : t.wf = true) (src : Path)
    (q : Path) :
    q ∈ keptFileRels src [] (iglT src t) ↔ (t.findFile? q).isSome = true := by
  constructor
  · intro hmem
    simp only [keptFileRels] at hmem
    obtain ⟨e, hef, heq⟩ := List.mem_map.mp hmem
    have hf : e.1 = 'f' := by simpa using (List.mem_filter.mp hef).2
    have he : e ∈ iglT src t := (List.mem_filter.mp (List.mem_filter.mp hef).1).1
    obtain ⟨r, hrne, he2, hcase⟩ := (mem_iglT_iff t hwf src e).mp he
    have hrel : relpath e.2 src = r := by rw [he2, relpath_append]
    rcases hcase with ⟨hd, _⟩ | ⟨_, hsome⟩
    · rw [hf] at hd
      exact absurd hd (by decide)
    · rw [← heq, hrel]
      exact hsome
  · intro hsome
    have hq : q ≠ [] := by
      intro hh
      rw [hh, findFile?_nil] at hsome
      simp at hsome
    have hreach : reachable src t ('f', src ++ q) := ⟨q, hq, rfl, Or.inr ⟨rfl, hsome⟩⟩
    have hmem : ('f', src ++ q) ∈ iglT src t := (mem_iglT_iff t hwf src _).mpr hreach
    simp only [keptFileRels]
    refine List.mem_map.mpr ⟨('f', src ++ q), ?_, ?_⟩
    · exact List.mem_filter.mpr
        ⟨List.mem_filter.mpr ⟨hmem, keptB_nil src _⟩, by simp⟩
    · show relpath (src ++ q) src = q
      exact relpath_append src q

/-- C3 amended: for a well-formed source tree and a fresh destination that is
prefix-incomparable with the source (in particular not inside it), `move_tree`
succeeds and afterwards the destination contains exactly the pre-move contents
of the source — the same directories and the same files with the same
contents — while the source tree no longer exists. -/
theorem claim_C3_amended (fs t : FSTree) (src dst : Path)
    (hwf : t.wf = true) (h : fs.findDir? src = some t)
    (sep1 : ¬ src <+: dst) (sep2 : ¬ dst <+: src)
    (hfd : ∀ q : Path, q ≠ [] → fs.isDir (dst ++ q) = false)
    (hff : ∀ q : Path, fs.findFile? (dst ++ q) = none)
    (hsf : fs.findFile? src = none) :
    ∃ rec fs2, move_tree fs src dst = some (rec, fs2)
      ∧ (∀ q : Path, q ≠ [] → (fs2.isDir (dst ++ q) = true ↔ t.isDir q = true))
      ∧ (∀ q : Path, fs2.findFile? (dst ++ q) = t.findFile? q)
      ∧ fs2.isDir dst = true
      ∧ fs2.isDir src = false
      ∧ fs2.findFile? src = none := by
  have h0 : (fs.mkdirs dst).findDir? src = some t := by
    rw [findDir?_mkdirs_indep sep2 sep1]
    exact h
  have hread := iglT_file_readable hwf h0
  have heff := foldl_fsStep_effects src dst [] (iglT src t) (fs.mkdirs dst)
    (iglT_shape t src) (iglT_kind t src) (iglT_paths_nodup t hwf src) hread sep1 sep2
  have hcopy := copy_tree_eq dst [] h0
  have hpresF := foldl_fsStep_pres src dst [] (iglT src t) (fs.mkdirs dst) src
    (fun e he => relpath_ne_nil (iglT_shape t src e he).2) sep2 sep1
  have hFd : ((iglT src t).foldl (fsStep src dst []) (fs.mkdirs dst)).findDir? src
      = some t := hpresF.1.trans h0
  have hFisDir : ((iglT src t).foldl (fsStep src dst []) (fs.mkdirs dst)).isDir src
      = true := by
    rw [FSTree.isDir, hFd]
    rfl
  have hrm : rmtree_onerror ((iglT src t).foldl (fsStep src dst []) (fs.mkdirs dst))
        src
      = .ok (((iglT src t).foldl (fsStep src dst []) (fs.mkdirs dst)).removeDir
          src) := by
    simp only [rmtree_onerror, hFisDir, if_true]
  have hmove : move_tree fs src dst
      = some ((iglT src t).map (retarget src dst),
          (((iglT src t).foldl (fsStep src dst []) (fs.mkdirs dst)).removeDir
            src)) := by
    simp only [move_tree, hcopy, Option.some_bind, hrm, filter_keptB_nil]
  refine ⟨_, _, hmove, ?_, ?_, ?_, ?_, ?_⟩
  · intro q hq
    have hsep := srcpath_sep sep2 sep1 (List.prefix_append dst q)
    have hloc : ((((iglT src t).foldl (fsStep src dst [])
          (fs.mkdirs dst)).removeDir src).findDir? (dst ++ q))
        = (((iglT src t).foldl (fsStep src dst []) (fs.mkdirs dst)).findDir?
            (dst ++ q)) :=
      findDir?_removeDir_indep hsep.1 hsep.2
    have hIso : ((((iglT src t).foldl (fsStep src dst [])
          (fs.mkdirs dst)).removeDir src).isDir (dst ++ q))
        = (((iglT src t).foldl (fsStep src dst []) (fs.mkdirs dst)).isDir
            (dst ++ q)) := by
      simp only [FSTree.isDir, hloc]
    rw [hIso, heff.1 q hq, isDir_mkdirs, neededDirs_all_iff hwf src q hq]
    have h1 : fs.isDir (dst ++ q) = false := hfd q hq
    have h2 : ¬ (dst ++ q) <+: dst := by
      intro hh
      have hlen := hh.length_le
      rw [List.length_append] at hlen
      have : q.length = 0 := by omega
      exact hq (List.length_eq_zero.mp this)
    simp [h1, h2]
  · intro q
    have hns : ¬ src <+: dst ++ q := by
      intro hh
      rcases prefix_total_of_common hh (List.prefix_append dst q) with h2 | h2
      · exact sep1 h2
      · exact sep2 h2
    have hloc : ((((iglT src t).foldl (fsStep src dst [])
          (fs.mkdirs dst)).removeDir src).findFile? (dst ++ q))
        = (((iglT src t).foldl (fsStep src dst []) (fs.mkdirs dst)).findFile?
            (dst ++ q)) :=
      findFile?_removeDir_not_strict_below (Or.inl hns)
    rw [hloc]
    cases hv : t.findFile? q with
    | none =>
      have hg : (fs.mkdirs dst).findFile? (dst ++ q) = none := by
        rw [findFile?_mkdirs]
        exact hff q
      have hnk : q ∉ keptFileRels src [] (iglT src t) := by
        rw [keptFileRels_all_iff hwf src q, hv]
        simp
      have hnot : ¬ (((iglT src t).foldl (fsStep src dst [])
          (fs.mkdirs dst)).findFile? (dst ++ q)).isSome = true := by
        rw [heff.2.1 q, hg]
        simp [hnk]
      rw [Option.not_isSome_iff_eq_none] at hnot
      rw [hnot]
    | some v =>
      have hq : q ≠ [] := by
        intro hh
        rw [hh, findFile?_nil] at hv
        exact Option.noConfusion hv
      have hreach : reachable src t ('f', src ++ q) :=
        ⟨q, hq, rfl, Or.inr ⟨rfl, by rw [hv]; rfl⟩⟩
      have hmem := (mem_iglT_iff t hwf src _).mpr hreach
      have hiv := heff.2.2.2 ('f', src ++ q) hmem (keptB_nil src _) rfl
      simp only [relpath_append] at hiv
      rw [findFile?_mkdirs] at hiv
      rw [hiv, findFile?_append fs src q hq, h, Option.some_bind, hv]
  · have hdst0 : (fs.mkdirs dst).isDir dst = true :=
      (isDir_mkdirs fs dst dst).mpr (Or.inr (List.prefix_refl dst))
    have hFdst := foldl_fsStep_isDir_dst src dst [] (iglT src t) (fs.mkdirs dst) hdst0
    have hloc : ((((iglT src t).foldl (fsStep src dst [])
          (fs.mkdirs dst)).removeDir src).findDir? dst)
        = (((iglT src t).foldl (fsStep src dst []) (fs.mkdirs dst)).findDir?
            dst) :=
      findDir?_removeDir_indep sep1 sep2
    simp only [FSTree.isDir, hloc]
    exact hFdst
  · have hsrcne : src ≠ [] := by
      intro hh
      exact sep1 (hh ▸ List.nil_prefix)
    exact isDir_removeDir_self _ hsrcne
  · have hloc : ((((iglT src t).foldl (fsStep src dst [])
          (fs.mkdirs dst)).removeDir src).findFile? src)
        = (((iglT src t).foldl (fsStep src dst []) (fs.mkdirs dst)).findFile?
            src) :=
      findFile?_removeDir_not_strict_below (Or.inr rfl)
    rw [hloc, hpresF.2, findFile?_mkdirs]
    exact hsf

/-- Witness for C3 amended: moving s (directory u, file a) into the absent
destination d of fxMove. -/
theorem claim_C3_amended_witness :
    (fxMoveSub.wf = true
      ∧ fxMove.findDir? ["s"] = some fxMoveSub
      ∧ ¬ (["s"] : Path) <+: ["d"] ∧ ¬ (["d"] : Path) <+: ["s"]
      ∧ (∀ q : Path, q ≠ [] → fxMove.isDir (["d"] ++ q) = false)
      ∧ (∀ q : Path, fxMove.findFile? (["d"] ++ q) = none)
      ∧ fxMove.findFile? ["s"] = none)
    ∧ (∃ rec fs2, move_tree fxMove ["s"] ["d"] = some (rec, fs2)
        ∧ (∀ q : Path, q ≠ [] →
            (fs2.isDir (["d"] ++ q) = true ↔ fxMoveSub.isDir q = true))
        ∧ (∀ q : Path, fs2.findFile? (["d"] ++ q) = fxMoveSub.findFile? q)
        ∧ fs2.isDir ["d"] = true
        ∧ fs2.isDir ["s"] = false
        ∧ fs2.findFile? ["s"] = none) :=
  ⟨⟨rfl, rfl, by decide, by decide,
      fun q hq => by rw [FSTree.isDir, findDir?_append]; rfl,
      fun q => by
        cases q with
        | nil => rfl
        | cons a b => rw [findFile?_append _ _ _ (List.cons_ne_nil a b)]; rfl,
      rfl⟩,
    claim_C3_amended fxMove fxMoveSub ["s"] ["d"] rfl rfl (by decide) (by decide)
      (fun q hq => by rw [FSTree.isDir, findDir?_append]; rfl)
      (fun q => by
        cases q with
        | nil => rfl
        | cons a b => rw [findFile?_append _ _ _ (List.cons_ne_nil a b)]; rfl)
      rfl⟩

/-! ### Counterexamples -/

/-- C1 fails as stated: when the script tree carries a file at the same
workspace path as a student file, the path appears in both records and the
later script `chmod` leaves it at mode `0o644`, not the student file mode
`0o666` the claim requires for every entry of the student record. -/
theorem claim_C1_counterexample :
    (setup_files fxSetupClash [] ["sub"] ["w"] ["scripts"] "files").map
        (fun r => (decide (('f', (["w", "a"] : Path)) ∈ r.2.2.1),
          decide (('f', (["w", "a"] : Path)) ∈ r.2.2.2),
          lookupA r.2.1 ["w", "a"]))
      = some (true, true, some 0o644)
    ∧ (0o644 : Nat) ≠ (0o666 : Nat) :=
  ⟨rfl, by decide⟩

/-- C3 fails as stated: with a destination that already holds a file `b`, the
destination does not contain exactly the pre-move contents of the source
afterwards (it still contains `b`, which was never under the source), even
though the source tree is gone and the destination is not inside the
source. -/
theorem claim_C3_counterexample :
    ((fxMoveBusy.findDir? ["s"]).isSome = true
      ∧ ¬ (["s"] : Path) <+: ["d"])
    ∧ (move_tree fxMoveBusy ["s"] ["d"]).map
        (fun r => (r.2.findFile? ["d", "b"], r.2.findFile? ["d", "a"], r.2.isDir ["s"]))
      = some (some "y", some "x", false)
    ∧ fxMoveBusy.findFile? ["s", "b"] = none :=
  ⟨⟨rfl, by decide⟩, rfl, rfl⟩

/-- C4 fails as stated: excluding the directory `a` while keeping its child
file `a/x` still creates the directory `d/a` on disk (as a needed intermediate
parent), yet the returned record does not list it — so the record does not
list everything actually created under the destination, and more is created
than the non-excluded entries. -/
theorem claim_C4_counterexample :
    (copy_tree fxExclude ["s"] ["d"] [["a"]]).map
        (fun r => (r.1, r.2.isDir ["d", "a"], r.2.findFile? ["d", "a", "x"],
          decide (('d', (["d", "a"] : Path)) ∈ r.1)))
      = some ([('f', ["d", "a", "x"])], true, some "c", false)
    ∧ fxExclude.isDir ["d", "a"] = false :=
  ⟨rfl, rfl⟩

/-- C5 fails as stated: copying `a` into `a/b` (a destination inside the
source) adds the directory `a/b` and the file `a/b/f` under the source, so the
source tree's entry set changes. -/
theorem claim_C5_counterexample :
    (copy_tree fxSmall ["a"] ["a", "b"] []).map
        (fun r => (r.2.isDir ["a", "b"], r.2.findFile? ["a", "b", "f"]))
      = some (true, some "x")
    ∧ fxSmall.isDir ["a", "b"] = false
    ∧ fxSmall.findFile? ["a", "b", "f"] = none :=
  ⟨rfl, rfl, rfl⟩

/-- C9 fails as stated: a zip archive holding only the file entry `a/b` (no
explicit directory entry) extracts to a destination that also contains the
intermediate directory `a`, which is not among the archive's stripped entry
paths. -/
theorem claim_C9_counterexample :
    (extract_zip_stream [⟨false, ["a", "b"], "c"⟩] 0).isDir ["a"] = true
    ∧ (extract_zip_stream [⟨false, ["a", "b"], "c"⟩] 0).findFile? ["a", "b"] = some "c"
    ∧ (["a"] : Path) ∉ [(["a", "b"] : Path)] :=
  ⟨rfl, rfl, by decide⟩

end Autotester
